import Mathlib

/-!
# Verification of the JIT alias-analysis subsystem

A shallow embedding of `torch/csrc/jit/passes/alias_analysis.cpp`:
the `AliasTracker` points-to graph (elements, wildcards, writes, the
query cache), the `AliasDb` graph walker (`analyze`, `analyzeIf`,
`analyzeLoop`, the schema-driven path), and the topological node mover
(`tryMove`).  Machine sets (`std::unordered_set`) are modelled as
lists with membership-guarded insertion; map lookups follow the
`emplace` (no-overwrite) semantics of the source; fatal `AT_ASSERT` /
`ErrorReport` paths are modelled with `Option` / `Except`.
-/

namespace AliasModel

/-- IR values are identified by their unique id. -/
abbrev Value := Nat

/-- IR nodes are identified by a unique id. -/
abbrev NodeId := Nat

/-- The fragment of the JIT type system that `shouldAnnotate` inspects:
tensors (`DynamicType` and subtypes), lists, tuples (tagged by identity),
type variables, optionals and non-aliasing primitives. -/
inductive JType where
  | tensor : JType
  | listT (elem : JType) : JType
  | tupleT (tag : Nat) : JType
  | optionalT (elem : JType) : JType
  | varT : JType
  | primT (tag : Nat) : JType
deriving DecidableEq

/-- `shouldAnnotate` from `alias_analysis.cpp`: a type is tracked iff it is
a tensor, list, tuple, type variable, or an optional of a tracked type. -/
def shouldAnnotate : JType → Bool
  | .tensor => true
  | .listT _ => true
  | .tupleT _ => true
  | .varT => true
  | .optionalT e => shouldAnnotate e
  | .primT _ => false

/-- `AliasTracker::Element`: a vertex of the points-to graph, bound to one
IR value, with forward edges, back-references, and per-element writers. -/
structure Element where
  value : Value
  pointsTo : List Nat
  pointedFrom : List Nat
  writers : List NodeId
deriving DecidableEq, Inhabited

/-- The state of an `AliasTracker`: the element store (`elements_`, ids are
list indices), the value-to-element index (`map_`), the wildcard value set
(`wildcards_`), the wildcard writer set (`wildcardWriters_`) and the write
counter (`numWrites_`). -/
structure ATState where
  elements : List Element
  map : List (Value × Nat)
  wildcards : List Value
  wildcardWriters : List NodeId
  numWrites : Nat
deriving DecidableEq

/-- The freshly constructed tracker. -/
def emptyState : ATState := ⟨[], [], [], [], 0⟩

/-- First-match association lookup, the model of `map_.count/at`. -/
def assocFind (v : Value) : List (Value × Nat) → Option Nat
  | [] => none
  | (k, e) :: rest => if k = v then some e else assocFind v rest

/-- Membership-guarded insertion, the model of `unordered_set::insert`. -/
def linsert (x : Nat) (l : List Nat) : List Nat :=
  if x ∈ l then l else l ++ [x]

/-- `AliasTracker::contains`: is `v` present in the tracker's map? -/
def contains (s : ATState) (v : Value) : Bool := (assocFind v s.map).isSome

/-- `AliasTracker::isWildcard`. -/
def isWildcard (s : ATState) (v : Value) : Bool := decide (v ∈ s.wildcards)

/-- Element access by id; ids past the store return the default element. -/
def getEl (s : ATState) (i : Nat) : Element := s.elements.getD i default

/-- Replace the element at index `i` by `f` of it. -/
def updEl (s : ATState) (i : Nat) (f : Element → Element) : ATState :=
  { s with elements := s.elements.set i (f (getEl s i)) }

/-- `AliasTracker::makeFreshValue`: append a fresh element bound to `v` and
register the mapping; `map_.emplace` does not overwrite an existing key. -/
def makeFreshValue (s : ATState) (v : Value) : ATState :=
  { s with
    elements := s.elements ++ [⟨v, [], [], []⟩]
    map := if contains s v then s.map else s.map ++ [(v, s.elements.length)] }

/-- `AliasTracker::setWildcard`. -/
def setWildcard (s : ATState) (v : Value) : ATState :=
  { s with wildcards := if v ∈ s.wildcards then s.wildcards else s.wildcards ++ [v] }

/-- Insert the double edge `vId points-to toId` / `toId pointed-from vId`. -/
def addEdge (s : ATState) (vId toId : Nat) : ATState :=
  let s1 := updEl s vId (fun el => { el with pointsTo := linsert toId el.pointsTo })
  updEl s1 toId (fun el => { el with pointedFrom := linsert vId el.pointedFrom })

/-- `if (!map_.count(x)) { makeFreshValue(x); }` -/
def ensureMapped (s : ATState) (v : Value) : ATState :=
  if contains s v then s else makeFreshValue s v

/-- `AliasTracker::makePointerTo`: no-op on `v == to`; wildcard targets
only wildcard the source; otherwise ensure both values have elements
(`to` first, then `v`, as in the source) and insert the edge. -/
def makePointerTo (s : ATState) (v tgt : Value) : ATState :=
  if v = tgt then s
  else if isWildcard s tgt then setWildcard s v
  else
    match assocFind v (ensureMapped (ensureMapped s tgt) v).map,
          assocFind tgt (ensureMapped (ensureMapped s tgt) v).map with
    | some vId, some toId => addEdge (ensureMapped (ensureMapped s tgt) v) vId toId
    | _, _ => ensureMapped (ensureMapped s tgt) v

/-- `AliasTracker::registerWrite`: bump `numWrites_`; wildcard values get a
wildcard writer, otherwise `AT_ASSERT(map_.count(v))` (modelled as `none`)
and the element's writer set grows. -/
def registerWrite (s : ATState) (v : Value) (n : NodeId) : Option ATState :=
  let s1 := { s with numWrites := s.numWrites + 1 }
  if isWildcard s1 v then
    some { s1 with wildcardWriters := linsert n s1.wildcardWriters }
  else
    match assocFind v s1.map with
    | some i => some (updEl s1 i (fun el => { el with writers := linsert n el.writers }))
    | none => none

/-- One mutating tracker operation, for quantifying over operation
histories. -/
inductive TOp where
  | fresh (v : Value)
  | pointer (v tgt : Value)
  | wild (v : Value)
  | write (v : Value) (n : NodeId)

/-- Apply one operation; `none` models a fatal assertion failure. -/
def TOp.apply : TOp → ATState → Option ATState
  | .fresh v, s => some (makeFreshValue s v)
  | .pointer v tgt, s => some (makePointerTo s v tgt)
  | .wild v, s => some (setWildcard s v)
  | .write v n, s => registerWrite s v n

/-- Run a history of tracker operations from the empty tracker. -/
def buildState (ops : List TOp) : Option ATState :=
  ops.foldlM (fun s op => op.apply s) emptyState

/-! ## BFS over the element graph (`Element::bfs`) -/

/-- The traversal direction of `Element::bfs`. -/
inductive BfsDirection where
  | POINTS_TO
  | POINTED_FROM
  | BOTH
deriving DecidableEq

/-- The edges followed from element `i` in direction `dir`. -/
def neighbors (s : ATState) (dir : BfsDirection) (i : Nat) : List Nat :=
  match dir with
  | .POINTS_TO => (getEl s i).pointsTo
  | .POINTED_FROM => (getEl s i).pointedFrom
  | .BOTH => (getEl s i).pointsTo ++ (getEl s i).pointedFrom

/-- One step of the graph relation in direction `dir`. -/
def edgeRel (s : ATState) (dir : BfsDirection) (x y : Nat) : Prop :=
  y ∈ neighbors s dir x

instance (s : ATState) (dir : BfsDirection) (x y : Nat) :
    Decidable (edgeRel s dir x y) := by
  unfold edgeRel; infer_instance

/-- One breadth level of `Element::bfs`: keep the visited set and add all
its neighbours. -/
def closStep (s : ATState) (dir : BfsDirection) (S : Finset Nat) : Finset Nat :=
  S ∪ S.biUnion (fun i => (neighbors s dir i).toFinset)

/-- The set of elements visited by `Element::bfs` starting at `start`:
saturating the level step as many times as there are elements. -/
def closure (s : ATState) (dir : BfsDirection) (start : Nat) : Finset Nat :=
  (closStep s dir)^[s.elements.length] {start}

/-- `Element::bfs` with `shortCircuit`: does any visited element satisfy
`fn`? -/
def bfsAny (s : ATState) (dir : BfsDirection) (start : Nat) (fn : Element → Bool) : Bool :=
  decide (∃ i ∈ closure s dir start, fn (getEl s i) = true)

/-! ## Tracker queries -/

namespace AliasTracker

/-- `AliasTracker::writesTo`. -/
def writesTo (s : ATState) (n : NodeId) (v : Value) : Bool :=
  if isWildcard s v then decide (n ∈ s.wildcardWriters)
  else
    match assocFind v s.map with
    | none => false
    | some i => decide (n ∈ (getEl s i).writers)

/-- `AliasTracker::pointsTo`: untracked `a` answers false; a wildcard on
either side answers true; otherwise a forward (`POINTS_TO`) BFS looks for
an element whose bound value is `b`. -/
def pointsTo (s : ATState) (a b : Value) : Bool :=
  match assocFind a s.map with
  | none => false
  | some root =>
    if isWildcard s a || isWildcard s b then true
    else bfsAny s .POINTS_TO root (fun el => decide (el.value = b))

/-- The `useCache_ = false` branch of `AliasTracker::hasWriters`: a
both-direction BFS looking for an element with a writer. -/
def hasWritersNoCache (s : ATState) (root : Nat) : Bool :=
  bfsAny s .BOTH root (fun el => decide (el.writers ≠ []))

/-- `pointsTo.size() == 0`: is element `i` a sink of the points-to graph? -/
def isSink (s : ATState) (i : Nat) : Bool := (getEl s i).pointsTo.isEmpty

/-- All sinks of the element store, the roots from which `cache()` assigns
set ids (we take a sink's own index as its set id; ids are opaque). -/
def sinks (s : ATState) : List Nat :=
  (List.range s.elements.length).filter (fun i => isSink s i)

/-- The set ids `cache()` assigns to element `x`: the sinks whose backward
(`POINTED_FROM`) BFS visits `x`.  `elementToSet_[x]`. -/
def cacheSetsOf (s : ATState) (x : Nat) : List Nat :=
  (sinks s).filter (fun i => decide (x ∈ closure s .POINTED_FROM i))

/-- The elements visited by the backward BFS from sink `i`, as a list. -/
def closureList (s : ATState) (dir : BfsDirection) (i : Nat) : List Nat :=
  (List.range s.elements.length).filter (fun y => decide (y ∈ closure s dir i))

/-- `setToWrites_[id]`: the writers collected by `assignSet` along the
backward BFS from sink `i`. -/
def cacheSetWriters (s : ATState) (i : Nat) : List NodeId :=
  (closureList s .POINTED_FROM i).flatMap (fun y => (getEl s y).writers)

/-- `AliasTracker::hasWritersCached`; `elementToSet_.at` throws
(`none`) when the element was assigned no set. -/
def hasWritersCached (s : ATState) (v : Value) : Option Bool :=
  match assocFind v s.map with
  | none => none
  | some e =>
    if cacheSetsOf s e = [] then none
    else some ((cacheSetsOf s e).any (fun i => decide (cacheSetWriters s i ≠ [])))

/-- `AliasTracker::getWritersCached`. -/
def getWritersCached (s : ATState) (v : Value) : Option (List NodeId) :=
  match assocFind v s.map with
  | none => none
  | some e =>
    if cacheSetsOf s e = [] then none
    else some ((cacheSetsOf s e).flatMap (fun i => cacheSetWriters s i))

/-- `AliasTracker::hasWriters`.  The source has `useCache_ = true`, so the
final branch consults the cache.  Note the wildcard branch returns
`numWrites_ == 0`, exactly as written in the source. -/
def hasWriters (s : ATState) (v : Value) : Option Bool :=
  match assocFind v s.map with
  | none => some false
  | some _ =>
    if isWildcard s v then some (decide (s.numWrites = 0))
    else if s.wildcardWriters ≠ [] then some true
    else hasWritersCached s v

/-- `AliasTracker::getWrites`: wildcard writers plus (through the cache)
the writers of the value's component. -/
def getWrites (s : ATState) (v : Value) : Option (List NodeId) :=
  match assocFind v s.map with
  | none => some []
  | some _ => do
    let cached ← getWritersCached s v
    pure (s.wildcardWriters ++ cached)

end AliasTracker


/-! ## Reachability facts about the BFS closure -/

theorem mem_closStep_iff {s : ATState} {dir : BfsDirection} {S : Finset Nat} {y : Nat} :
    y ∈ closStep s dir S ↔ y ∈ S ∨ ∃ x ∈ S, edgeRel s dir x y := by
  simp [closStep, edgeRel, Finset.mem_union, Finset.mem_biUnion, List.mem_toFinset]

theorem subset_closStep (s : ATState) (dir : BfsDirection) (S : Finset Nat) :
    S ⊆ closStep s dir S := Finset.subset_union_left

theorem closure_mono_step (s : ATState) (dir : BfsDirection) (a : Nat) (n : Nat) :
    (closStep s dir)^[n] {a} ⊆ (closStep s dir)^[n + 1] {a} := by
  rw [Function.iterate_succ_apply']
  exact subset_closStep s dir _

theorem closure_chain {s : ATState} {dir : BfsDirection} {a : Nat} {m n : Nat} (h : m ≤ n) :
    (closStep s dir)^[m] {a} ⊆ (closStep s dir)^[n] {a} := by
  induction h with
  | refl => exact fun x hx => hx
  | step _ ih => exact fun x hx => closure_mono_step s dir a _ (ih hx)

theorem start_mem_iterate (s : ATState) (dir : BfsDirection) (a n : Nat) :
    a ∈ (closStep s dir)^[n] {a} :=
  closure_chain (Nat.zero_le n) (by simp)

theorem iterate_sound {s : ATState} {dir : BfsDirection} {a x : Nat} :
    ∀ {n : Nat}, x ∈ (closStep s dir)^[n] {a} →
      Relation.ReflTransGen (edgeRel s dir) a x := by
  intro n
  induction n generalizing x with
  | zero =>
    intro h
    simp only [Function.iterate_zero, id, Finset.mem_singleton] at h
    subst h
    exact .refl
  | succ n ih =>
    rw [Function.iterate_succ_apply']
    intro h
    rcases mem_closStep_iff.mp h with h | ⟨y, hy, hxy⟩
    · exact ih h
    · exact (ih hy).tail hxy

/-- All edge targets stored in the element graph are valid element ids. -/
def EdgesValid (s : ATState) : Prop :=
  ∀ i, (∀ j ∈ (getEl s i).pointsTo, j < s.elements.length) ∧
       (∀ j ∈ (getEl s i).pointedFrom, j < s.elements.length)

theorem neighbors_lt {s : ATState} (hv : EdgesValid s) (dir : BfsDirection) (i : Nat) :
    ∀ j ∈ neighbors s dir i, j < s.elements.length := by
  intro j hj
  cases dir with
  | POINTS_TO => exact (hv i).1 j hj
  | POINTED_FROM => exact (hv i).2 j hj
  | BOTH =>
    rcases List.mem_append.mp hj with hj | hj
    · exact (hv i).1 j hj
    · exact (hv i).2 j hj

theorem iterate_subset_range {s : ATState} {dir : BfsDirection} {a : Nat}
    (hv : EdgesValid s) (ha : a < s.elements.length) :
    ∀ n, (closStep s dir)^[n] {a} ⊆ Finset.range s.elements.length := by
  intro n
  induction n with
  | zero => simpa using Finset.singleton_subset_iff.mpr (Finset.mem_range.mpr ha)
  | succ n ih =>
    rw [Function.iterate_succ_apply']
    intro x hx
    rcases mem_closStep_iff.mp hx with h | ⟨y, _, hxy⟩
    · exact ih h
    · exact Finset.mem_range.mpr (neighbors_lt hv _ _ _ hxy)

theorem closStep_closure {s : ATState} {dir : BfsDirection} {a : Nat}
    (hv : EdgesValid s) (ha : a < s.elements.length) :
    closStep s dir (closure s dir a) = closure s dir a := by
  unfold closure
  by_cases hex : ∃ k, k < s.elements.length ∧
      (closStep s dir)^[k + 1] {a} = (closStep s dir)^[k] {a}
  · obtain ⟨k, hk, hfix⟩ := hex
    have hfx : closStep s dir ((closStep s dir)^[k] {a}) = (closStep s dir)^[k] {a} := by
      rw [← Function.iterate_succ_apply' (closStep s dir) k {a}]
      exact hfix
    have hNk : (closStep s dir)^[s.elements.length] {a} = (closStep s dir)^[k] {a} := by
      have hsplit : s.elements.length = (s.elements.length - k) + k :=
        (Nat.sub_add_cancel hk.le).symm
      rw [hsplit, Function.iterate_add_apply, Function.iterate_fixed hfx]
    rw [hNk, hfx]
  · push_neg at hex
    have grow : ∀ k, k ≤ s.elements.length → k + 1 ≤ ((closStep s dir)^[k] {a}).card := by
      intro k
      induction k with
      | zero => intro _; simp
      | succ k ih =>
        intro hk
        have hk' : k < s.elements.length := hk
        have hss : (closStep s dir)^[k] {a} ⊂ (closStep s dir)^[k + 1] {a} :=
          ssubset_of_subset_of_ne (closure_mono_step s dir a k)
            (fun h => hex k hk' h.symm)
        have hcard := Finset.card_lt_card hss
        have hkk := ih hk'.le
        omega
    have h1 := grow s.elements.length le_rfl
    have h2 : ((closStep s dir)^[s.elements.length] {a}).card ≤ s.elements.length := by
      simpa using Finset.card_le_card (iterate_subset_range hv ha s.elements.length)
    exfalso
    omega

theorem closure_complete {s : ATState} {dir : BfsDirection} {a x : Nat}
    (hv : EdgesValid s) (ha : a < s.elements.length)
    (h : Relation.ReflTransGen (edgeRel s dir) a x) : x ∈ closure s dir a := by
  induction h with
  | refl => exact start_mem_iterate s dir a _
  | tail _ hstep ih =>
    have hmem : _ ∈ closStep s dir (closure s dir a) :=
      mem_closStep_iff.mpr (Or.inr ⟨_, ih, hstep⟩)
    rwa [closStep_closure hv ha] at hmem

theorem mem_closure_iff {s : ATState} {dir : BfsDirection} {a x : Nat}
    (hv : EdgesValid s) (ha : a < s.elements.length) :
    x ∈ closure s dir a ↔ Relation.ReflTransGen (edgeRel s dir) a x :=
  ⟨fun h => iterate_sound h, closure_complete hv ha⟩

theorem edgeRel_both_iff {s : ATState} {x y : Nat} :
    edgeRel s .BOTH x y ↔ edgeRel s .POINTS_TO x y ∨ edgeRel s .POINTED_FROM x y := by
  simp [edgeRel, neighbors]


/-! ## Helper lemmas about the state primitives -/

theorem assocFind_append_some {v : Value} {m1 m2 : List (Value × Nat)} {i : Nat}
    (h : assocFind v m1 = some i) : assocFind v (m1 ++ m2) = some i := by
  induction m1 with
  | nil => simp [assocFind] at h
  | cons p rest ih =>
    obtain ⟨k, e⟩ := p
    by_cases hk : k = v
    · simpa [assocFind, hk] using (by simpa [assocFind, hk] using h)
    · simp [assocFind, hk] at h ⊢
      exact ih h

theorem assocFind_append_none {v : Value} {m1 m2 : List (Value × Nat)}
    (h : assocFind v m1 = none) : assocFind v (m1 ++ m2) = assocFind v m2 := by
  induction m1 with
  | nil => simp [assocFind]
  | cons p rest ih =>
    obtain ⟨k, e⟩ := p
    by_cases hk : k = v
    · simp [assocFind, hk] at h
    · simp [assocFind, hk] at h ⊢
      exact ih h

theorem assocFind_eq_none_iff {v : Value} {m : List (Value × Nat)} :
    assocFind v m = none ↔ v ∉ m.map Prod.fst := by
  induction m with
  | nil => simp [assocFind]
  | cons p rest ih =>
    obtain ⟨k, e⟩ := p
    by_cases hk : k = v
    · simp [assocFind, hk]
    · simp [assocFind, hk, ih, Ne.symm hk]

theorem assocFind_snd_mem {v : Value} {m : List (Value × Nat)} {i : Nat}
    (h : assocFind v m = some i) : i ∈ m.map Prod.snd := by
  induction m with
  | nil => simp [assocFind] at h
  | cons p rest ih =>
    obtain ⟨k, e⟩ := p
    by_cases hk : k = v
    · simp [assocFind, hk] at h
      simp [h]
    · simp [assocFind, hk] at h
      simp [ih h]

theorem assocFind_inj {m : List (Value × Nat)} (hids : (m.map Prod.snd).Nodup)
    {v w : Value} {i : Nat}
    (hv : assocFind v m = some i) (hw : assocFind w m = some i) : v = w := by
  induction m with
  | nil => simp [assocFind] at hv
  | cons p rest ih =>
    obtain ⟨k, e⟩ := p
    simp only [List.map_cons, List.nodup_cons] at hids
    by_cases hkv : k = v <;> by_cases hkw : k = w
    · rw [← hkv, ← hkw]
    · simp only [assocFind, hkv, if_true, Option.some.injEq] at hv
      simp only [assocFind, hkw, if_false] at hw
      exact absurd (hv ▸ assocFind_snd_mem hw) hids.1
    · simp only [assocFind, hkw, if_true, Option.some.injEq] at hw
      simp only [assocFind, hkv, if_false] at hv
      exact absurd (hw ▸ assocFind_snd_mem hv) hids.1
    · simp only [assocFind, hkv, if_false] at hv
      simp only [assocFind, hkw, if_false] at hw
      exact ih hids.2 hv hw

theorem mem_linsert {x y : Nat} {l : List Nat} : x ∈ linsert y l ↔ x = y ∨ x ∈ l := by
  unfold linsert
  by_cases hy : y ∈ l
  · simp only [hy, if_true]
    constructor
    · exact Or.inr
    · rintro (rfl | h) <;> assumption
  · simp [hy, List.mem_append, or_comm]

theorem subset_linsert (y : Nat) (l : List Nat) : l ⊆ linsert y l := by
  intro x hx
  exact mem_linsert.mpr (Or.inr hx)

@[simp] theorem updEl_map (s : ATState) (i : Nat) (f : Element → Element) :
    (updEl s i f).map = s.map := rfl

@[simp] theorem updEl_wildcards (s : ATState) (i : Nat) (f : Element → Element) :
    (updEl s i f).wildcards = s.wildcards := rfl

@[simp] theorem updEl_wildcardWriters (s : ATState) (i : Nat) (f : Element → Element) :
    (updEl s i f).wildcardWriters = s.wildcardWriters := rfl

@[simp] theorem updEl_numWrites (s : ATState) (i : Nat) (f : Element → Element) :
    (updEl s i f).numWrites = s.numWrites := rfl

@[simp] theorem updEl_length (s : ATState) (i : Nat) (f : Element → Element) :
    (updEl s i f).elements.length = s.elements.length := by
  simp [updEl]

theorem getEl_default {s : ATState} {i : Nat} (h : s.elements.length ≤ i) :
    getEl s i = default := by
  unfold getEl
  exact List.getD_eq_default _ _ h

theorem getEl_updEl_self {s : ATState} {i : Nat} {f : Element → Element}
    (h : i < s.elements.length) : getEl (updEl s i f) i = f (getEl s i) := by
  show (s.elements.set i (f (getEl s i))).getD i default = f (getEl s i)
  rw [List.getD_eq_getElem _ _ (by simpa using h)]
  exact List.getElem_set_self (by simpa using h)

theorem getEl_updEl_ne {s : ATState} {i j : Nat} {f : Element → Element}
    (hne : i ≠ j) : getEl (updEl s i f) j = getEl s j := by
  show (s.elements.set i (f (getEl s i))).getD j default = getEl s j
  by_cases hj : j < s.elements.length
  · rw [List.getD_eq_getElem _ _ (by simpa using hj), List.getElem_set_ne hne,
      ← List.getD_eq_getElem _ default hj]
    rfl
  · rw [List.getD_eq_default _ _ (by simpa using Nat.le_of_not_lt hj),
      getEl_default (Nat.le_of_not_lt hj)]

@[simp] theorem makeFreshValue_wildcards (s : ATState) (v : Value) :
    (makeFreshValue s v).wildcards = s.wildcards := rfl

@[simp] theorem makeFreshValue_wildcardWriters (s : ATState) (v : Value) :
    (makeFreshValue s v).wildcardWriters = s.wildcardWriters := rfl

@[simp] theorem makeFreshValue_numWrites (s : ATState) (v : Value) :
    (makeFreshValue s v).numWrites = s.numWrites := rfl

@[simp] theorem makeFreshValue_length (s : ATState) (v : Value) :
    (makeFreshValue s v).elements.length = s.elements.length + 1 := by
  simp [makeFreshValue]

theorem getEl_makeFreshValue_self (s : ATState) (v : Value) :
    getEl (makeFreshValue s v) s.elements.length = ⟨v, [], [], []⟩ := by
  show (s.elements ++ ([⟨v, [], [], []⟩] : List Element)).getD s.elements.length default = _
  rw [List.getD_append_right _ _ _ _ le_rfl]
  simp

theorem getEl_makeFreshValue_ne {s : ATState} {v : Value} {i : Nat}
    (h : i ≠ s.elements.length) : getEl (makeFreshValue s v) i = getEl s i := by
  show (s.elements ++ ([⟨v, [], [], []⟩] : List Element)).getD i default = getEl s i
  rcases Nat.lt_or_ge i s.elements.length with hi | hi
  · rw [List.getD_append _ _ _ _ hi]
    rfl
  · have hi2 : s.elements.length < i := lt_of_le_of_ne hi (Ne.symm h)
    rw [List.getD_eq_default _ _ (by simp; omega), getEl_default hi]

/-! ## The tracker well-formedness invariant -/

theorem assocFind_snoc {w v : Value} {m : List (Value × Nat)} {L : Nat} :
    assocFind w (m ++ [(v, L)]) =
      match assocFind w m with
      | some i => some i
      | none => if v = w then some L else none := by
  cases hm : assocFind w m with
  | some i => simpa using assocFind_append_some hm
  | none => simpa [assocFind] using @assocFind_append_none w m [(v, L)] hm

theorem mem_map_assocFind {m : List (Value × Nat)} (hk : (m.map Prod.fst).Nodup)
    {v : Value} {i : Nat} (hm : (v, i) ∈ m) : assocFind v m = some i := by
  induction m with
  | nil => simp at hm
  | cons p rest ih =>
    obtain ⟨k, e⟩ := p
    simp only [List.map_cons, List.nodup_cons] at hk
    rcases List.mem_cons.mp hm with hm | hm
    · rw [Prod.mk.injEq] at hm
      obtain ⟨rfl, rfl⟩ := hm
      simp [assocFind]
    · have hkv : k ≠ v := by
        intro hkv
        exact hk.1 (hkv ▸ List.mem_map.mpr ⟨(v, i), hm, rfl⟩)
      simp only [assocFind, hkv, if_false]
      exact ih hk.2 hm

theorem assocFind_mem {m : List (Value × Nat)} {v : Value} {i : Nat}
    (h : assocFind v m = some i) : (v, i) ∈ m := by
  induction m with
  | nil => simp [assocFind] at h
  | cons p rest ih =>
    obtain ⟨k, e⟩ := p
    by_cases hk : k = v
    · simp only [assocFind, hk, if_true, Option.some.injEq] at h
      simp [← hk, ← h]
    · simp only [assocFind, hk, if_false] at h
      exact List.mem_cons_of_mem _ (ih h)

/-- Well-formedness of a tracker state: the value map points at elements
whose `value` field is the key; keys and element ids are unique; edges stay
inside the store and are mirrored (`pointsTo` and `pointedFrom` are
inverse); no self edges; edge endpoints are mapped; a wildcard writer
implies a positive write counter. -/
structure Inv (s : ATState) : Prop where
  mapValid : ∀ v i, assocFind v s.map = some i →
    i < s.elements.length ∧ (getEl s i).value = v
  mapKeysNodup : (s.map.map Prod.fst).Nodup
  mapIdsNodup : (s.map.map Prod.snd).Nodup
  edgesPT : ∀ i, ∀ j ∈ (getEl s i).pointsTo, j < s.elements.length
  edgesPF : ∀ i, ∀ j ∈ (getEl s i).pointedFrom, j < s.elements.length
  invEdge : ∀ i j, j ∈ (getEl s i).pointsTo ↔ i ∈ (getEl s j).pointedFrom
  irreflPT : ∀ i, i ∉ (getEl s i).pointsTo
  edgeSrcMapped : ∀ i j, j ∈ (getEl s i).pointsTo → ∃ v, assocFind v s.map = some i
  edgeTgtMapped : ∀ i j, j ∈ (getEl s i).pointsTo → ∃ v, assocFind v s.map = some j
  wildWrite : s.wildcardWriters ≠ [] → 0 < s.numWrites

theorem Inv.toEdgesValid {s : ATState} (h : Inv s) : EdgesValid s :=
  fun i => ⟨h.edgesPT i, h.edgesPF i⟩

theorem default_element : (default : Element) = ⟨0, [], [], []⟩ := rfl

theorem inv_empty : Inv emptyState := by
  constructor <;> simp [emptyState, assocFind, getEl, default_element]

theorem assocFind_makeFreshValue_of {s : ATState} {v w : Value} {i : Nat}
    (hw : assocFind w s.map = some i) :
    assocFind w (makeFreshValue s v).map = some i := by
  by_cases hc : contains s v
  · simpa [makeFreshValue, hc] using hw
  · simp only [makeFreshValue, hc]
    simp only [Bool.false_eq_true, if_false]
    exact assocFind_append_some hw

theorem assocFind_makeFreshValue {s : ATState} {v w : Value} {i : Nat}
    (h : assocFind w (makeFreshValue s v).map = some i) :
    assocFind w s.map = some i ∨
      (assocFind w s.map = none ∧ v = w ∧ i = s.elements.length) := by
  by_cases hc : contains s v
  · simp only [makeFreshValue, hc, if_true] at h
    exact Or.inl h
  · simp only [makeFreshValue, hc, Bool.false_eq_true, if_false] at h
    rw [assocFind_snoc] at h
    cases hm : assocFind w s.map with
    | some j =>
      rw [hm] at h
      simp only at h
      exact Or.inl h
    | none =>
      rw [hm] at h
      simp only at h
      by_cases hv : v = w
      · simp only [hv, if_true, Option.some.injEq] at h
        exact Or.inr ⟨rfl, hv, h.symm⟩
      · simp [hv] at h

theorem inv_makeFreshValue {s : ATState} (h : Inv s) (v : Value) :
    Inv (makeFreshValue s v) := by
  have hgetself : getEl (makeFreshValue s v) s.elements.length = ⟨v, [], [], []⟩ :=
    getEl_makeFreshValue_self s v
  have hptnew : ∀ i, (getEl (makeFreshValue s v) i).pointsTo = (getEl s i).pointsTo := by
    intro i
    by_cases hi : i = s.elements.length
    · subst hi
      rw [hgetself, getEl_default le_rfl, default_element]
    · rw [getEl_makeFreshValue_ne hi]
  have hpfnew : ∀ i, (getEl (makeFreshValue s v) i).pointedFrom = (getEl s i).pointedFrom := by
    intro i
    by_cases hi : i = s.elements.length
    · subst hi
      rw [hgetself, getEl_default le_rfl, default_element]
    · rw [getEl_makeFreshValue_ne hi]
  constructor
  · intro w i hw
    rcases assocFind_makeFreshValue hw with hold | ⟨_, rfl, rfl⟩
    · obtain ⟨h1, h2⟩ := h.mapValid w i hold
      have h1' : i < (makeFreshValue s v).elements.length := by
        rw [makeFreshValue_length]
        omega
      have hne : i ≠ s.elements.length := by omega
      exact ⟨h1', by rw [getEl_makeFreshValue_ne hne]; exact h2⟩
    · exact ⟨by simp, by rw [hgetself]⟩
  · by_cases hc : contains s v
    · simpa [makeFreshValue, hc] using h.mapKeysNodup
    · have hv : v ∉ s.map.map Prod.fst := by
        apply assocFind_eq_none_iff.mp
        unfold contains at hc
        cases hm : assocFind v s.map with
        | some j => rw [hm] at hc; simp at hc
        | none => rfl
      simp only [makeFreshValue, hc, Bool.false_eq_true, if_false, List.map_append,
        List.map_cons, List.map_nil]
      rw [List.nodup_append]
      exact ⟨h.mapKeysNodup, List.nodup_singleton v, by simpa using fun hmem => hv hmem⟩
  · by_cases hc : contains s v
    · simpa [makeFreshValue, hc] using h.mapIdsNodup
    · have hold : ∀ i ∈ s.map.map Prod.snd, i < s.elements.length := by
        intro i hi
        obtain ⟨⟨w, j⟩, hmem, hj⟩ := List.mem_map.mp hi
        simp only at hj
        subst hj
        exact (h.mapValid w j (mem_map_assocFind h.mapKeysNodup hmem)).1
      simp only [makeFreshValue, hc, Bool.false_eq_true, if_false, List.map_append,
        List.map_cons, List.map_nil]
      rw [List.nodup_append]
      refine ⟨h.mapIdsNodup, List.nodup_singleton _, ?_⟩
      intro a hmem hmem2
      rw [List.mem_singleton] at hmem2
      subst hmem2
      exact absurd (hold _ hmem) (lt_irrefl _)
  · intro i j hj
    rw [hptnew i] at hj
    have := h.edgesPT i j hj
    simp
    omega
  · intro i j hj
    rw [hpfnew i] at hj
    have := h.edgesPF i j hj
    simp
    omega
  · intro i j
    rw [hptnew i, hpfnew j]
    exact h.invEdge i j
  · intro i
    rw [hptnew i]
    exact h.irreflPT i
  · intro i j hj
    rw [hptnew i] at hj
    obtain ⟨w, hw⟩ := h.edgeSrcMapped i j hj
    exact ⟨w, assocFind_makeFreshValue_of hw⟩
  · intro i j hj
    rw [hptnew i] at hj
    obtain ⟨w, hw⟩ := h.edgeTgtMapped i j hj
    exact ⟨w, assocFind_makeFreshValue_of hw⟩
  · exact h.wildWrite

theorem inv_setWildcard {s : ATState} (h : Inv s) (v : Value) :
    Inv (setWildcard s v) := by
  cases h with
  | mk mv mkk mi ept epf ie ir esm etm ww =>
    exact ⟨mv, mkk, mi, ept, epf, ie, ir, esm, etm, ww⟩

theorem updEl_of_ge {s : ATState} {i : Nat} {f : Element → Element}
    (h : s.elements.length ≤ i) : updEl s i f = s := by
  simp [updEl, List.set_eq_of_length_le h]

theorem inv_updEl_preserve {s : ATState} {i : Nat} {f : Element → Element}
    (hpt : ∀ el, (f el).pointsTo = el.pointsTo)
    (hpf : ∀ el, (f el).pointedFrom = el.pointedFrom)
    (hv : ∀ el, (f el).value = el.value) (h : Inv s) : Inv (updEl s i f) := by
  by_cases hi : i < s.elements.length
  · have hget : ∀ j, (getEl (updEl s i f) j).pointsTo = (getEl s j).pointsTo ∧
        (getEl (updEl s i f) j).pointedFrom = (getEl s j).pointedFrom ∧
        (getEl (updEl s i f) j).value = (getEl s j).value := by
      intro j
      by_cases hij : i = j
      · subst hij
        rw [getEl_updEl_self hi]
        exact ⟨hpt _, hpf _, hv _⟩
      · rw [getEl_updEl_ne hij]
        exact ⟨rfl, rfl, rfl⟩
    constructor
    · intro w j hw
      obtain ⟨h1, h2⟩ := h.mapValid w j (by simpa using hw)
      exact ⟨by simpa using h1, by rw [(hget j).2.2]; exact h2⟩
    · simpa using h.mapKeysNodup
    · simpa using h.mapIdsNodup
    · intro a j hj
      rw [(hget a).1] at hj
      simpa using h.edgesPT a j hj
    · intro a j hj
      rw [(hget a).2.1] at hj
      simpa using h.edgesPF a j hj
    · intro a j
      rw [(hget a).1, (hget j).2.1]
      exact h.invEdge a j
    · intro a
      rw [(hget a).1]
      exact h.irreflPT a
    · intro a j hj
      rw [(hget a).1] at hj
      simpa using h.edgeSrcMapped a j hj
    · intro a j hj
      rw [(hget a).1] at hj
      simpa using h.edgeTgtMapped a j hj
    · simpa using h.wildWrite
  · rw [updEl_of_ge (Nat.le_of_not_lt hi)]
    exact h

@[simp] theorem addEdge_map (s : ATState) (vId toId : Nat) :
    (addEdge s vId toId).map = s.map := rfl

@[simp] theorem addEdge_wildcards (s : ATState) (vId toId : Nat) :
    (addEdge s vId toId).wildcards = s.wildcards := rfl

@[simp] theorem addEdge_wildcardWriters (s : ATState) (vId toId : Nat) :
    (addEdge s vId toId).wildcardWriters = s.wildcardWriters := rfl

@[simp] theorem addEdge_numWrites (s : ATState) (vId toId : Nat) :
    (addEdge s vId toId).numWrites = s.numWrites := rfl

@[simp] theorem addEdge_length (s : ATState) (vId toId : Nat) :
    (addEdge s vId toId).elements.length = s.elements.length := by
  simp [addEdge]

theorem getEl_addEdge_src {s : ATState} {vId toId : Nat} (hne : vId ≠ toId)
    (hv : vId < s.elements.length) :
    getEl (addEdge s vId toId) vId =
      { getEl s vId with pointsTo := linsert toId (getEl s vId).pointsTo } := by
  unfold addEdge
  rw [getEl_updEl_ne (Ne.symm hne), getEl_updEl_self hv]

theorem getEl_addEdge_tgt {s : ATState} {vId toId : Nat} (hne : vId ≠ toId)
    (ht : toId < s.elements.length) :
    getEl (addEdge s vId toId) toId =
      { getEl s toId with pointedFrom := linsert vId (getEl s toId).pointedFrom } := by
  unfold addEdge
  rw [getEl_updEl_self (by simpa using ht), getEl_updEl_ne hne]

theorem getEl_addEdge_other {s : ATState} {vId toId i : Nat}
    (h1 : i ≠ vId) (h2 : i ≠ toId) :
    getEl (addEdge s vId toId) i = getEl s i := by
  unfold addEdge
  rw [getEl_updEl_ne (Ne.symm h2), getEl_updEl_ne (Ne.symm h1)]

theorem inv_addEdge {s : ATState} {vId toId : Nat} (h : Inv s)
    (hne : vId ≠ toId)
    (hsrc : ∃ v, assocFind v s.map = some vId)
    (htgt : ∃ v, assocFind v s.map = some toId) : Inv (addEdge s vId toId) := by
  obtain ⟨v0, hv0⟩ := hsrc
  obtain ⟨t0, ht0⟩ := htgt
  have hvlt : vId < s.elements.length := (h.mapValid v0 vId hv0).1
  have htlt : toId < s.elements.length := (h.mapValid t0 toId ht0).1
  have hpt : ∀ i, (getEl (addEdge s vId toId) i).pointsTo =
      if i = vId then linsert toId (getEl s i).pointsTo else (getEl s i).pointsTo := by
    intro i
    by_cases hi : i = vId
    · subst hi
      rw [getEl_addEdge_src hne hvlt, if_pos rfl]
    · rw [if_neg hi]
      by_cases hi2 : i = toId
      · subst hi2
        rw [getEl_addEdge_tgt hne htlt]
      · rw [getEl_addEdge_other hi hi2]
  have hpf : ∀ i, (getEl (addEdge s vId toId) i).pointedFrom =
      if i = toId then linsert vId (getEl s i).pointedFrom else (getEl s i).pointedFrom := by
    intro i
    by_cases hi : i = toId
    · subst hi
      rw [getEl_addEdge_tgt hne htlt, if_pos rfl]
    · rw [if_neg hi]
      by_cases hi2 : i = vId
      · subst hi2
        rw [getEl_addEdge_src hne hvlt]
      · rw [getEl_addEdge_other hi2 hi]
  have hval : ∀ i, (getEl (addEdge s vId toId) i).value = (getEl s i).value := by
    intro i
    by_cases hi : i = vId
    · subst hi
      rw [getEl_addEdge_src hne hvlt]
    · by_cases hi2 : i = toId
      · subst hi2
        rw [getEl_addEdge_tgt hne htlt]
      · rw [getEl_addEdge_other hi hi2]
  constructor
  · intro w i hw
    obtain ⟨h1, h2⟩ := h.mapValid w i (by simpa using hw)
    exact ⟨by simpa using h1, by rw [hval i]; exact h2⟩
  · simpa using h.mapKeysNodup
  · simpa using h.mapIdsNodup
  · intro i j hj
    rw [hpt i] at hj
    by_cases hi : i = vId
    · rw [if_pos hi] at hj
      rcases mem_linsert.mp hj with rfl | hj
      · simpa using htlt
      · simpa using h.edgesPT i j hj
    · rw [if_neg hi] at hj
      simpa using h.edgesPT i j hj
  · intro i j hj
    rw [hpf i] at hj
    by_cases hi : i = toId
    · rw [if_pos hi] at hj
      rcases mem_linsert.mp hj with rfl | hj
      · simpa using hvlt
      · simpa using h.edgesPF i j hj
    · rw [if_neg hi] at hj
      simpa using h.edgesPF i j hj
  · intro i j
    rw [hpt i, hpf j]
    by_cases hi : i = vId <;> by_cases hj : j = toId
    · rw [if_pos hi, if_pos hj]
      constructor
      · intro _
        exact mem_linsert.mpr (Or.inl hi)
      · intro _
        exact mem_linsert.mpr (Or.inl hj)
    · rw [if_pos hi, if_neg hj]
      constructor
      · intro hmem
        rcases mem_linsert.mp hmem with hEq | hmem2
        · exact absurd hEq hj
        · exact (h.invEdge i j).mp hmem2
      · intro hmem
        exact mem_linsert.mpr (Or.inr ((h.invEdge i j).mpr hmem))
    · rw [if_neg hi, if_pos hj]
      constructor
      · intro hmem
        exact mem_linsert.mpr (Or.inr ((h.invEdge i j).mp hmem))
      · intro hmem
        rcases mem_linsert.mp hmem with hEq | hmem2
        · exact absurd hEq hi
        · exact (h.invEdge i j).mpr hmem2
    · rw [if_neg hi, if_neg hj]
      exact h.invEdge i j
  · intro i
    rw [hpt i]
    by_cases hi : i = vId
    · rw [if_pos hi]
      intro hmem
      rcases mem_linsert.mp hmem with hEq | hmem2
      · exact hne (hi ▸ hEq)
      · exact h.irreflPT i hmem2
    · rw [if_neg hi]
      exact h.irreflPT i
  · intro i j hj
    rw [hpt i] at hj
    by_cases hi : i = vId
    · exact ⟨v0, by rw [hi]; simpa using hv0⟩
    · rw [if_neg hi] at hj
      simpa using h.edgeSrcMapped i j hj
  · intro i j hj
    rw [hpt i] at hj
    by_cases hi : i = vId
    · rw [if_pos hi] at hj
      rcases mem_linsert.mp hj with rfl | hj
      · exact ⟨t0, by simpa using ht0⟩
      · simpa using h.edgeTgtMapped i j hj
    · rw [if_neg hi] at hj
      simpa using h.edgeTgtMapped i j hj
  · simpa using h.wildWrite

theorem inv_ensureMapped {s : ATState} (h : Inv s) (v : Value) :
    Inv (ensureMapped s v) := by
  unfold ensureMapped
  by_cases hc : contains s v
  · simpa [hc] using h
  · simpa [hc] using inv_makeFreshValue h v

theorem inv_makePointerTo {s : ATState} (h : Inv s) (v tgt : Value) :
    Inv (makePointerTo s v tgt) := by
  unfold makePointerTo
  by_cases hvt : v = tgt
  · simpa [hvt] using h
  · rw [if_neg hvt]
    by_cases hw : isWildcard s tgt
    · simpa [hw] using inv_setWildcard h v
    · simp only [hw, Bool.false_eq_true, if_false]
      have h2 : Inv (ensureMapped (ensureMapped s tgt) v) :=
        inv_ensureMapped (inv_ensureMapped h tgt) v
      set s2 := ensureMapped (ensureMapped s tgt) v with hs2
      cases hfv : assocFind v s2.map with
      | none => exact h2
      | some vId =>
        cases hft : assocFind tgt s2.map with
        | none => exact h2
        | some toId =>
          have hneid : vId ≠ toId := by
            intro hEq
            exact hvt (assocFind_inj h2.mapIdsNodup hfv (hEq ▸ hft))
          exact inv_addEdge h2 hneid ⟨v, hfv⟩ ⟨tgt, hft⟩

theorem inv_registerWrite {s s' : ATState} (h : Inv s) {v : Value} {n : NodeId}
    (hr : registerWrite s v n = some s') : Inv s' := by
  have hmid : Inv ({ s with numWrites := s.numWrites + 1 } : ATState) := by
    cases h with
    | mk mv mkk mi ept epf ie ir esm etm _ =>
      exact ⟨mv, mkk, mi, ept, epf, ie, ir, esm, etm, fun _ => Nat.succ_pos _⟩
  unfold registerWrite at hr
  by_cases hw : isWildcard { s with numWrites := s.numWrites + 1 } v
  · rw [if_pos hw] at hr
    obtain rfl := Option.some.injEq .. ▸ hr
    cases hmid with
    | mk mv mkk mi ept epf ie ir esm etm _ =>
      exact ⟨mv, mkk, mi, ept, epf, ie, ir, esm, etm, fun _ => Nat.succ_pos _⟩
  · rw [if_neg hw] at hr
    cases hf : assocFind v s.map with
    | none =>
      rw [show assocFind v ({ s with numWrites := s.numWrites + 1 } : ATState).map =
        none from hf] at hr
      exact absurd hr (by simp)
    | some i =>
      rw [show assocFind v ({ s with numWrites := s.numWrites + 1 } : ATState).map =
        some i from hf] at hr
      obtain rfl := Option.some.injEq .. ▸ hr
      exact inv_updEl_preserve (fun _ => rfl) (fun _ => rfl) (fun _ => rfl) hmid

theorem inv_TOp_apply {s s' : ATState} (h : Inv s) {op : TOp}
    (ha : op.apply s = some s') : Inv s' := by
  cases op with
  | fresh v =>
    obtain rfl := Option.some.injEq .. ▸ ha
    exact inv_makeFreshValue h v
  | pointer v tgt =>
    obtain rfl := Option.some.injEq .. ▸ ha
    exact inv_makePointerTo h v tgt
  | wild v =>
    obtain rfl := Option.some.injEq .. ▸ ha
    exact inv_setWildcard h v
  | write v n => exact inv_registerWrite h ha

theorem inv_foldl {ops : List TOp} : ∀ {s0 s : ATState}, Inv s0 →
    ops.foldlM (fun s op => TOp.apply op s) s0 = some s → Inv s := by
  induction ops with
  | nil =>
    intro s0 s h hfold
    simp only [List.foldlM_nil, Option.pure_def, Option.some.injEq] at hfold
    exact hfold ▸ h
  | cons op rest ih =>
    intro s0 s h hfold
    simp only [List.foldlM_cons, Option.bind_eq_bind] at hfold
    cases hstep : TOp.apply op s0 with
    | none => rw [hstep] at hfold; simp at hfold
    | some s1 =>
      rw [hstep] at hfold
      simp only [Option.some_bind] at hfold
      exact ih (inv_TOp_apply h hstep) hfold

/-- Every tracker state reachable by a history of operations is
well-formed. -/
theorem buildState_inv {ops : List TOp} {s : ATState}
    (h : buildState ops = some s) : Inv s :=
  inv_foldl inv_empty h

/-! ## Monotonicity: tracker operations only add -/

/-- `s'` extends `s`: elements are never removed or rebound, and edges,
wildcards, writers only grow.  This is the spec's "edges are only ever
added, never removed" monotonicity. -/
structure Extends (s s' : ATState) : Prop where
  len_le : s.elements.length ≤ s'.elements.length
  map_pres : ∀ v i, assocFind v s.map = some i → assocFind v s'.map = some i
  wild_pres : ∀ v, v ∈ s.wildcards → v ∈ s'.wildcards
  value_pres : ∀ i, i < s.elements.length → (getEl s' i).value = (getEl s i).value
  pt_pres : ∀ i, (getEl s i).pointsTo ⊆ (getEl s' i).pointsTo
  pf_pres : ∀ i, (getEl s i).pointedFrom ⊆ (getEl s' i).pointedFrom
  writers_pres : ∀ i, (getEl s i).writers ⊆ (getEl s' i).writers

theorem Extends.rfl (s : ATState) : Extends s s :=
  ⟨le_refl _, fun _ _ h => h, fun _ h => h, fun _ _ => Eq.refl _,
   fun _ => List.Subset.refl _, fun _ => List.Subset.refl _, fun _ => List.Subset.refl _⟩

theorem Extends.trans {s1 s2 s3 : ATState} (h1 : Extends s1 s2) (h2 : Extends s2 s3) :
    Extends s1 s3 := by
  refine ⟨le_trans h1.len_le h2.len_le, ?_, ?_, ?_, ?_, ?_, ?_⟩
  · exact fun v i h => h2.map_pres v i (h1.map_pres v i h)
  · exact fun v h => h2.wild_pres v (h1.wild_pres v h)
  · intro i hi
    rw [h2.value_pres i (lt_of_lt_of_le hi h1.len_le), h1.value_pres i hi]
  · exact fun i => List.Subset.trans (h1.pt_pres i) (h2.pt_pres i)
  · exact fun i => List.Subset.trans (h1.pf_pres i) (h2.pf_pres i)
  · exact fun i => List.Subset.trans (h1.writers_pres i) (h2.writers_pres i)

theorem extends_updEl {s : ATState} {i : Nat} {f : Element → Element}
    (hval : ∀ el, (f el).value = el.value)
    (hpt : ∀ el, el.pointsTo ⊆ (f el).pointsTo)
    (hpf : ∀ el, el.pointedFrom ⊆ (f el).pointedFrom)
    (hwr : ∀ el, el.writers ⊆ (f el).writers) : Extends s (updEl s i f) := by
  by_cases hi : i < s.elements.length
  · have hget : ∀ j, getEl (updEl s i f) j = getEl s j ∨
        getEl (updEl s i f) j = f (getEl s j) := by
      intro j
      by_cases hij : i = j
      · subst hij
        exact Or.inr (getEl_updEl_self hi)
      · exact Or.inl (getEl_updEl_ne hij)
    refine ⟨by simp, fun v j h => by simpa using h, fun v h => h, ?_, ?_, ?_, ?_⟩
    · intro j _
      rcases hget j with h | h <;> rw [h]
      exact hval _
    · intro j
      rcases hget j with h | h <;> rw [h]
      · exact List.Subset.refl _
      · exact hpt _
    · intro j
      rcases hget j with h | h <;> rw [h]
      · exact List.Subset.refl _
      · exact hpf _
    · intro j
      rcases hget j with h | h <;> rw [h]
      · exact List.Subset.refl _
      · exact hwr _
  · rw [updEl_of_ge (Nat.le_of_not_lt hi)]
    exact Extends.rfl s

theorem extends_makeFreshValue (s : ATState) (v : Value) :
    Extends s (makeFreshValue s v) := by
  refine ⟨by simp, fun w i h => assocFind_makeFreshValue_of h, fun w h => h, ?_, ?_, ?_, ?_⟩
  · intro i hi
    rw [getEl_makeFreshValue_ne (by omega)]
  · intro i
    by_cases hi : i = s.elements.length
    · subst hi
      rw [getEl_default le_rfl, default_element]
      simp
    · rw [getEl_makeFreshValue_ne hi]
      exact List.Subset.refl _
  · intro i
    by_cases hi : i = s.elements.length
    · subst hi
      rw [getEl_default le_rfl, default_element]
      simp
    · rw [getEl_makeFreshValue_ne hi]
      exact List.Subset.refl _
  · intro i
    by_cases hi : i = s.elements.length
    · subst hi
      rw [getEl_default le_rfl, default_element]
      simp
    · rw [getEl_makeFreshValue_ne hi]
      exact List.Subset.refl _

theorem extends_setWildcard (s : ATState) (v : Value) :
    Extends s (setWildcard s v) := by
  refine ⟨le_refl _, fun _ _ h => h, ?_, fun _ _ => Eq.refl _,
    fun _ => List.Subset.refl _, fun _ => List.Subset.refl _, fun _ => List.Subset.refl _⟩
  intro w hw
  show w ∈ (if v ∈ s.wildcards then s.wildcards else s.wildcards ++ [v])
  by_cases hv : v ∈ s.wildcards
  · simpa [hv] using hw
  · simp only [hv, if_false]
    exact List.mem_append_left _ hw

theorem extends_addEdge (s : ATState) (vId toId : Nat) :
    Extends s (addEdge s vId toId) := by
  show Extends s
    (updEl (updEl s vId (fun el => { el with pointsTo := linsert toId el.pointsTo }))
      toId (fun el => { el with pointedFrom := linsert vId el.pointedFrom }))
  exact Extends.trans
    (extends_updEl (f := fun el => { el with pointsTo := linsert toId el.pointsTo })
      (fun _ => Eq.refl _) (fun el => subset_linsert toId el.pointsTo)
      (fun _ => List.Subset.refl _) (fun _ => List.Subset.refl _))
    (extends_updEl (f := fun el => { el with pointedFrom := linsert vId el.pointedFrom })
      (fun _ => Eq.refl _) (fun _ => List.Subset.refl _)
      (fun el => subset_linsert vId el.pointedFrom) (fun _ => List.Subset.refl _))

theorem extends_ensureMapped (s : ATState) (v : Value) :
    Extends s (ensureMapped s v) := by
  unfold ensureMapped
  by_cases hc : contains s v
  · simpa [hc] using Extends.rfl s
  · simpa [hc] using extends_makeFreshValue s v

theorem extends_makePointerTo (s : ATState) (v tgt : Value) :
    Extends s (makePointerTo s v tgt) := by
  unfold makePointerTo
  by_cases hvt : v = tgt
  · simp only [hvt, if_true]
    exact Extends.rfl s
  · rw [if_neg hvt]
    by_cases hw : isWildcard s tgt
    · simpa [hw] using extends_setWildcard s v
    · simp only [hw, Bool.false_eq_true, if_false]
      have e2 : Extends s (ensureMapped (ensureMapped s tgt) v) :=
        Extends.trans (extends_ensureMapped s tgt) (extends_ensureMapped (ensureMapped s tgt) v)
      set s2 := ensureMapped (ensureMapped s tgt) v with hs2
      cases assocFind v s2.map with
      | none => exact e2
      | some vId =>
        cases assocFind tgt s2.map with
        | none => exact e2
        | some toId => exact Extends.trans e2 (extends_addEdge s2 vId toId)

theorem extends_registerWrite {s s' : ATState} {v : Value} {n : NodeId}
    (hr : registerWrite s v n = some s') : Extends s s' := by
  have emid : Extends s ({ s with numWrites := s.numWrites + 1 } : ATState) :=
    ⟨le_refl _, fun _ _ h => h, fun _ h => h, fun _ _ => Eq.refl _,
     fun _ => List.Subset.refl _, fun _ => List.Subset.refl _, fun _ => List.Subset.refl _⟩
  unfold registerWrite at hr
  by_cases hw : isWildcard { s with numWrites := s.numWrites + 1 } v
  · rw [if_pos hw] at hr
    obtain rfl := Option.some.injEq .. ▸ hr
    exact ⟨le_refl _, fun _ _ h => h, fun _ h => h, fun _ _ => Eq.refl _,
      fun _ => List.Subset.refl _, fun _ => List.Subset.refl _, fun _ => List.Subset.refl _⟩
  · rw [if_neg hw] at hr
    cases hf : assocFind v s.map with
    | none =>
      rw [show assocFind v ({ s with numWrites := s.numWrites + 1 } : ATState).map =
        none from hf] at hr
      exact absurd hr (by simp)
    | some i =>
      rw [show assocFind v ({ s with numWrites := s.numWrites + 1 } : ATState).map =
        some i from hf] at hr
      obtain rfl := Option.some.injEq .. ▸ hr
      exact Extends.trans emid
        (extends_updEl (fun _ => Eq.refl _) (fun _ => List.Subset.refl _)
          (fun _ => List.Subset.refl _) (fun el => subset_linsert n el.writers))

theorem extends_TOp_apply {s s' : ATState} {op : TOp} (ha : op.apply s = some s') :
    Extends s s' := by
  cases op with
  | fresh v =>
    obtain rfl := Option.some.injEq .. ▸ ha
    exact extends_makeFreshValue s v
  | pointer v tgt =>
    obtain rfl := Option.some.injEq .. ▸ ha
    exact extends_makePointerTo s v tgt
  | wild v =>
    obtain rfl := Option.some.injEq .. ▸ ha
    exact extends_setWildcard s v
  | write v n => exact extends_registerWrite ha

/-! ## Characterization of the pointsTo query, and claims C1 / C9 -/

theorem pointsTo_char {s : ATState} (hInv : Inv s) (a b : Value) :
    AliasTracker.pointsTo s a b = true ↔
      ∃ ea, assocFind a s.map = some ea ∧
        (isWildcard s a = true ∨ isWildcard s b = true ∨
          ∃ eb, assocFind b s.map = some eb ∧
            Relation.ReflTransGen (edgeRel s .POINTS_TO) ea eb) := by
  unfold AliasTracker.pointsTo
  cases hf : assocFind a s.map with
  | none =>
    simp only [Bool.false_eq_true, false_iff]
    rintro ⟨ea, hea, -⟩
    exact Option.noConfusion hea
  | some root =>
    have hroot := hInv.mapValid a root hf
    change (if (isWildcard s a || isWildcard s b) = true then true
      else bfsAny s BfsDirection.POINTS_TO root fun el => decide (el.value = b)) = true ↔ _
    by_cases hw : (isWildcard s a || isWildcard s b) = true
    · rw [if_pos hw]
      simp only [true_iff]
      rcases Bool.or_eq_true_iff.mp hw with h1 | h1
      · exact ⟨root, rfl, Or.inl h1⟩
      · exact ⟨root, rfl, Or.inr (Or.inl h1)⟩
    · rw [if_neg hw]
      have hwa : ¬isWildcard s a = true := fun h1 => hw (by simp [h1])
      have hwb : ¬isWildcard s b = true := fun h1 => hw (by simp [h1])
      unfold bfsAny
      rw [decide_eq_true_iff]
      constructor
      · rintro ⟨i, hi, hval⟩
        rw [decide_eq_true_iff] at hval
        refine ⟨root, rfl, Or.inr (Or.inr ?_)⟩
        have hreach : Relation.ReflTransGen (edgeRel s .POINTS_TO) root i :=
          iterate_sound hi
        rcases hreach.cases_tail with hEq | ⟨c, _, hedge⟩
        · subst hEq
          have hba : b = a := by rw [← hval]; exact hroot.2
          refine ⟨i, ?_, .refl⟩
          rw [hba]
          exact hf
        · obtain ⟨w, hwmap⟩ := hInv.edgeTgtMapped c i hedge
          have hival := (hInv.mapValid w i hwmap).2
          have hwb2 : w = b := by rw [← hival, hval]
          exact ⟨i, hwb2 ▸ hwmap, hreach⟩
      · rintro ⟨ea, hea, hcase⟩
        obtain rfl : root = ea := Option.some.injEq .. ▸ hea
        rcases hcase with h1 | h1 | ⟨eb, heb, hrtg⟩
        · exact absurd h1 hwa
        · exact absurd h1 hwb
        · refine ⟨eb, closure_complete hInv.toEdgesValid hroot.1 hrtg, ?_⟩
          rw [decide_eq_true_iff]
          exact (hInv.mapValid b eb heb).2

/-- The may-alias relation exactly as the spec's sentence for C1 states
it: "the union of forward and backward reachable sets from `a` intersects
that of `b`, or either side is a wildcard".  Written from the spec text
for comparison with the source's `AliasTracker.pointsTo`. -/
def mayAliasSpec (s : ATState) (a b : Value) : Bool :=
  if isWildcard s a || isWildcard s b then true
  else
    match assocFind a s.map, assocFind b s.map with
    | some ea, some eb => decide (∃ i ∈ closure s .BOTH ea, i ∈ closure s .BOTH eb)
    | _, _ => false

/-- The tracker state with a single pointer edge from value 2 to value 1
(the history `makePointerTo(2, 1)`). -/
def c1State : ATState := makePointerTo emptyState 2 1

/-- **C1, counterexample.**  The claim says `AliasTracker::pointsTo(a,b)`
is true iff the union of forward and backward reachable sets of `a` and
of `b` intersect (or a wildcard is involved).  After the single operation
`makePointerTo(2, 1)`, the bidirectional reachable sets of values 1 and 2
are both `{1, 2}` and intersect, yet `pointsTo(1, 2)` returns false: the
source's BFS follows `pointsTo` edges forward only. -/
theorem C1_counterexample :
    buildState [TOp.pointer 2 1] = some c1State ∧
    AliasTracker.pointsTo c1State 1 2 = false ∧
    mayAliasSpec c1State 1 2 = true := by
  refine ⟨rfl, ?_, ?_⟩ <;> decide

/-- **C1, amended.**  For every tracker state reachable by a history of
operations, `AliasTracker::pointsTo(a, b)` returns true iff `a` is
tracked in the map and (`a` or `b` is a wildcard, or `b`'s element is
reachable from `a`'s element following `pointsTo` edges forward only) —
not bidirectionally as the claim stated. -/
theorem C1_pointsTo_amended {ops : List TOp} {s : ATState}
    (h : buildState ops = some s) (a b : Value) :
    AliasTracker.pointsTo s a b = true ↔
      ∃ ea, assocFind a s.map = some ea ∧
        (isWildcard s a = true ∨ isWildcard s b = true ∨
          ∃ eb, assocFind b s.map = some eb ∧
            Relation.ReflTransGen (edgeRel s .POINTS_TO) ea eb) :=
  pointsTo_char (buildState_inv h) a b

/-- Witness for `C1_pointsTo_amended` at the concrete one-edge state. -/
theorem C1_pointsTo_amended_witness :
    AliasTracker.pointsTo c1State 2 1 = true ↔
      ∃ ea, assocFind 2 c1State.map = some ea ∧
        (isWildcard c1State 2 = true ∨ isWildcard c1State 1 = true ∨
          ∃ eb, assocFind 1 c1State.map = some eb ∧
            Relation.ReflTransGen (edgeRel c1State .POINTS_TO) ea eb) :=
  @C1_pointsTo_amended [TOp.pointer 2 1] c1State rfl 2 1

/-- **C9.**  Along any operation history: the value-to-element map stays
injective per value (no value is bound twice), elements are never removed
or rebound (their `value` is stable and the store only grows), each
operation only ever adds `pointsTo`/`pointedFrom` edges, and every edge
connects two existing, distinct elements. -/
theorem C9_element_invariants {ops : List TOp} {s : ATState}
    (h : buildState ops = some s) {op : TOp} {s' : ATState}
    (hstep : op.apply s = some s') :
    (s'.map.map Prod.fst).Nodup ∧
    s.elements.length ≤ s'.elements.length ∧
    (∀ i, i < s.elements.length → (getEl s' i).value = (getEl s i).value) ∧
    (∀ i, (getEl s i).pointsTo ⊆ (getEl s' i).pointsTo) ∧
    (∀ i, (getEl s i).pointedFrom ⊆ (getEl s' i).pointedFrom) ∧
    (∀ i j, j ∈ (getEl s' i).pointsTo →
      i ≠ j ∧ i < s'.elements.length ∧ j < s'.elements.length) := by
  have hInv := buildState_inv h
  have hInv' := inv_TOp_apply hInv hstep
  have hExt := extends_TOp_apply hstep
  refine ⟨hInv'.mapKeysNodup, hExt.len_le, hExt.value_pres, hExt.pt_pres, hExt.pf_pres, ?_⟩
  intro i j hj
  refine ⟨fun hEq => hInv'.irreflPT i (hEq ▸ hj), ?_, hInv'.edgesPT i j hj⟩
  obtain ⟨w, hmap⟩ := hInv'.edgeSrcMapped i j hj
  exact (hInv'.mapValid w i hmap).1

/-- Witness for `C9_element_invariants`: the one-edge history followed by
inserting the edge `3 → 1`. -/
theorem C9_element_invariants_witness :
    ((makePointerTo c1State 3 1).map.map Prod.fst).Nodup ∧
    c1State.elements.length ≤ (makePointerTo c1State 3 1).elements.length ∧
    (∀ i, i < c1State.elements.length →
      (getEl (makePointerTo c1State 3 1) i).value = (getEl c1State i).value) ∧
    (∀ i, (getEl c1State i).pointsTo ⊆ (getEl (makePointerTo c1State 3 1) i).pointsTo) ∧
    (∀ i, (getEl c1State i).pointedFrom ⊆
      (getEl (makePointerTo c1State 3 1) i).pointedFrom) ∧
    (∀ i j, j ∈ (getEl (makePointerTo c1State 3 1) i).pointsTo →
      i ≠ j ∧ i < (makePointerTo c1State 3 1).elements.length ∧
        j < (makePointerTo c1State 3 1).elements.length) :=
  @C9_element_invariants [TOp.pointer 2 1] c1State rfl (TOp.pointer 3 1)
    (makePointerTo c1State 3 1) rfl

/-! ## Characterization of the caching layer, claims C3 / C8 -/

theorem rtg_pf_iff_pt {s : ATState} (hInv : Inv s) {x y : Nat} :
    Relation.ReflTransGen (edgeRel s .POINTED_FROM) x y ↔
    Relation.ReflTransGen (edgeRel s .POINTS_TO) y x := by
  have hpoint : ∀ a b, edgeRel s .POINTED_FROM a b ↔ edgeRel s .POINTS_TO b a := by
    intro a b
    show b ∈ (getEl s a).pointedFrom ↔ a ∈ (getEl s b).pointsTo
    exact (hInv.invEdge b a).symm
  constructor
  · intro h
    induction h with
    | refl => exact .refl
    | tail _ hstep ih => exact Relation.ReflTransGen.head ((hpoint _ _).mp hstep) ih
  · intro h
    induction h with
    | refl => exact .refl
    | tail _ hstep ih => exact Relation.ReflTransGen.head ((hpoint _ _).mpr hstep) ih

theorem rtg_target_lt {s : ATState} (hInv : Inv s) {e t : Nat}
    (he : e < s.elements.length)
    (h : Relation.ReflTransGen (edgeRel s .POINTS_TO) e t) : t < s.elements.length := by
  induction h with
  | refl => exact he
  | tail _ hstep _ => exact hInv.edgesPT _ _ hstep

theorem mem_cacheSetsOf {s : ATState} (hInv : Inv s) {e t : Nat}
    (he : e < s.elements.length) :
    t ∈ AliasTracker.cacheSetsOf s e ↔
      AliasTracker.isSink s t = true ∧
        Relation.ReflTransGen (edgeRel s .POINTS_TO) e t := by
  unfold AliasTracker.cacheSetsOf AliasTracker.sinks
  simp only [List.mem_filter, List.mem_range, decide_eq_true_iff]
  constructor
  · rintro ⟨⟨ht, hsink⟩, hclos⟩
    refine ⟨hsink, ?_⟩
    exact (rtg_pf_iff_pt hInv).mp ((mem_closure_iff hInv.toEdgesValid ht).mp hclos)
  · rintro ⟨hsink, hrtg⟩
    have ht : t < s.elements.length := rtg_target_lt hInv he hrtg
    exact ⟨⟨ht, hsink⟩,
      (mem_closure_iff hInv.toEdgesValid ht).mpr ((rtg_pf_iff_pt hInv).mpr hrtg)⟩

theorem cacheSetWriters_ne_nil {s : ATState} (hInv : Inv s) {t : Nat}
    (ht : t < s.elements.length) :
    AliasTracker.cacheSetWriters s t ≠ [] ↔
      ∃ y, Relation.ReflTransGen (edgeRel s .POINTS_TO) y t ∧
        (getEl s y).writers ≠ [] := by
  unfold AliasTracker.cacheSetWriters AliasTracker.closureList
  constructor
  · intro hne
    have : ∃ y ∈ (List.range s.elements.length).filter
        (fun y => decide (y ∈ closure s .POINTED_FROM t)), (getEl s y).writers ≠ [] := by
      by_contra hall
      push_neg at hall
      exact hne (List.flatMap_eq_nil_iff.mpr hall)
    obtain ⟨y, hy, hwr⟩ := this
    simp only [List.mem_filter, List.mem_range, decide_eq_true_iff] at hy
    refine ⟨y, ?_, hwr⟩
    exact (rtg_pf_iff_pt hInv).mp ((mem_closure_iff hInv.toEdgesValid ht).mp hy.2)
  · rintro ⟨y, hrtg, hwr⟩
    have hy : y < s.elements.length := by
      by_contra hge
      rw [getEl_default (Nat.le_of_not_lt hge), default_element] at hwr
      exact hwr rfl
    intro hnil
    rw [List.flatMap_eq_nil_iff] at hnil
    refine hwr (hnil y ?_)
    simp only [List.mem_filter, List.mem_range, decide_eq_true_iff]
    exact ⟨hy, (mem_closure_iff hInv.toEdgesValid ht).mpr ((rtg_pf_iff_pt hInv).mpr hrtg)⟩

theorem hasWritersCached_char {s : ATState} (hInv : Inv s) {v : Value} {e : Nat}
    (he : assocFind v s.map = some e) :
    (AliasTracker.hasWritersCached s v = some true ↔
      ∃ t, AliasTracker.isSink s t = true ∧
        Relation.ReflTransGen (edgeRel s .POINTS_TO) e t ∧
        ∃ y, Relation.ReflTransGen (edgeRel s .POINTS_TO) y t ∧
          (getEl s y).writers ≠ []) ∧
    (AliasTracker.hasWritersCached s v = none ↔
      ¬∃ t, AliasTracker.isSink s t = true ∧
        Relation.ReflTransGen (edgeRel s .POINTS_TO) e t) := by
  have helt : e < s.elements.length := (hInv.mapValid v e he).1
  unfold AliasTracker.hasWritersCached
  rw [he]
  change ((if AliasTracker.cacheSetsOf s e = [] then none
      else some ((AliasTracker.cacheSetsOf s e).any
        fun i => decide (AliasTracker.cacheSetWriters s i ≠ []))) = some true ↔ _) ∧
    ((if AliasTracker.cacheSetsOf s e = [] then none
      else some ((AliasTracker.cacheSetsOf s e).any
        fun i => decide (AliasTracker.cacheSetWriters s i ≠ []))) = none ↔ _)
  by_cases hnil : AliasTracker.cacheSetsOf s e = []
  · rw [if_pos hnil]
    constructor
    · refine ⟨fun hcontra => absurd hcontra (by simp), ?_⟩
      rintro ⟨t, hsink, hrtg, -⟩
      have hmem : t ∈ AliasTracker.cacheSetsOf s e :=
        (mem_cacheSetsOf hInv helt).mpr ⟨hsink, hrtg⟩
      rw [hnil] at hmem
      exact absurd hmem (List.not_mem_nil t)
    · refine ⟨fun _ => ?_, fun _ => rfl⟩
      rintro ⟨t, hsink, hrtg⟩
      have hmem : t ∈ AliasTracker.cacheSetsOf s e :=
        (mem_cacheSetsOf hInv helt).mpr ⟨hsink, hrtg⟩
      rw [hnil] at hmem
      exact absurd hmem (List.not_mem_nil t)
  · rw [if_neg hnil]
    constructor
    · rw [Option.some.injEq]
      rw [List.any_eq_true]
      constructor
      · rintro ⟨t, hmem, hwr⟩
        obtain ⟨hsink, hrtg⟩ := (mem_cacheSetsOf hInv helt).mp hmem
        have ht : t < s.elements.length := rtg_target_lt hInv helt hrtg
        rw [decide_eq_true_iff] at hwr
        obtain ⟨y, hy, hywr⟩ := (cacheSetWriters_ne_nil hInv ht).mp hwr
        exact ⟨t, hsink, hrtg, y, hy, hywr⟩
      · rintro ⟨t, hsink, hrtg, y, hy, hywr⟩
        have ht : t < s.elements.length := rtg_target_lt hInv helt hrtg
        refine ⟨t, (mem_cacheSetsOf hInv helt).mpr ⟨hsink, hrtg⟩, ?_⟩
        rw [decide_eq_true_iff]
        exact (cacheSetWriters_ne_nil hInv ht).mpr ⟨y, hy, hywr⟩
    · refine ⟨fun hcontra => absurd hcontra (by simp), fun hno => ?_⟩
      obtain ⟨t, hmem⟩ := List.exists_mem_of_ne_nil _ hnil
      obtain ⟨hsink, hrtg⟩ := (mem_cacheSetsOf hInv helt).mp hmem
      exact absurd ⟨t, hsink, hrtg⟩ hno

/-- The tracker state after `makeFreshValue(5)`, `setWildcard(5)`,
`registerWrite(5, node 7)`: a tracked wildcard value with a wildcard
writer registered. -/
def c3State : ATState :=
  (buildState [TOp.fresh 5, TOp.wild 5, TOp.write 5 7]).getD emptyState

/-- **C3, code bug.**  The claim (and the source's own comment, "the only
way we know there are no writers is if there are no writes at all") says
`hasWriters` is true for every tracked value once a wildcard writer
exists.  But for a tracked wildcard value the source returns
`numWrites_ == 0`, an inverted comparison: with one wildcard write
recorded (`numWrites_ = 1`), `hasWriters(5)` evaluates to false. -/
theorem C3_hasWriters_wildcard_bug :
    buildState [TOp.fresh 5, TOp.wild 5, TOp.write 5 7] = some c3State ∧
    contains c3State 5 = true ∧
    isWildcard c3State 5 = true ∧
    c3State.wildcardWriters = [7] ∧
    c3State.numWrites = 1 ∧
    AliasTracker.hasWriters c3State 5 = some false := by
  refine ⟨rfl, ?_, ?_, ?_, ?_, ?_⟩ <;> decide

/-- The operation history building a "diamond" points-to graph:
`1 → 3`, `2 → 3`, `2 → 4`, `5 → 4`, and a write to value 5 by node 9. -/
def c8Ops : List TOp :=
  [TOp.pointer 1 3, TOp.pointer 2 3, TOp.pointer 2 4, TOp.pointer 5 4, TOp.write 5 9]

/-- The diamond tracker state. -/
def c8State : ATState := (buildState c8Ops).getD emptyState

/-- **C8, counterexample.**  The cached query `hasWritersCached` (used by
`hasWriters` since `useCache_` is always true) answers false for value 1
in the diamond state, while the uncached both-direction BFS
(`useCache_ = false` branch) finds node 9's write: the cache only sees
writers that forward-reach a sink which the queried element also
forward-reaches, not the whole weakly-connected component. -/
theorem C8_counterexample :
    buildState c8Ops = some c8State ∧
    assocFind 1 c8State.map = some 1 ∧
    c8State.wildcardWriters = [] ∧
    AliasTracker.hasWriters c8State 1 = some false ∧
    AliasTracker.hasWritersCached c8State 1 = some false ∧
    AliasTracker.hasWritersNoCache c8State 1 = true := by
  refine ⟨rfl, ?_, ?_, ?_, ?_, ?_⟩ <;> decide

/-- **C8, amended.**  What the freshly built cache actually computes, on
any reachable state: `hasWritersCached(v)` is `some true` iff some
points-to sink forward-reachable from `v`'s element is forward-reached by
some element with a writer; and it fails (`elementToSet_.at` throws) iff
no sink is forward-reachable from `v`'s element.  This differs from the
uncached both-direction BFS, so the cache is not a pure performance
layer. -/
theorem C8_cache_amended {ops : List TOp} {s : ATState}
    (h : buildState ops = some s) {v : Value} {e : Nat}
    (he : assocFind v s.map = some e) :
    (AliasTracker.hasWritersCached s v = some true ↔
      ∃ t, AliasTracker.isSink s t = true ∧
        Relation.ReflTransGen (edgeRel s .POINTS_TO) e t ∧
        ∃ y, Relation.ReflTransGen (edgeRel s .POINTS_TO) y t ∧
          (getEl s y).writers ≠ []) ∧
    (AliasTracker.hasWritersCached s v = none ↔
      ¬∃ t, AliasTracker.isSink s t = true ∧
        Relation.ReflTransGen (edgeRel s .POINTS_TO) e t) :=
  hasWritersCached_char (buildState_inv h) he

/-- Witness for `C8_cache_amended` at the diamond state and value 1. -/
theorem C8_cache_amended_witness :
    (AliasTracker.hasWritersCached c8State 1 = some true ↔
      ∃ t, AliasTracker.isSink c8State t = true ∧
        Relation.ReflTransGen (edgeRel c8State .POINTS_TO) 1 t ∧
        ∃ y, Relation.ReflTransGen (edgeRel c8State .POINTS_TO) y t ∧
          (getEl c8State y).writers ≠ []) ∧
    (AliasTracker.hasWritersCached c8State 1 = none ↔
      ¬∃ t, AliasTracker.isSink c8State t = true ∧
        Relation.ReflTransGen (edgeRel c8State .POINTS_TO) 1 t) :=
  @C8_cache_amended c8Ops c8State rfl 1 1 (by decide)

/-! ## The IR and the AliasDb graph walker -/

/-- Alias-set labels are opaque symbols. -/
abbrev Symbol := Nat

/-- An alias annotation on a schema argument or return (the schema
mini-language consumed by the walker: before-sets, a write flag, a
wildcard marker, and contained-type annotations whose count the walker
asserts to be zero). -/
structure AliasAnnotation where
  sets : List Symbol
  isWrite : Bool
  isWildcard : Bool
  numContainedTypes : Nat
deriving DecidableEq

/-- A schema argument or return: an optional alias annotation. -/
structure SchemaArg where
  aliasInfo : Option AliasAnnotation
deriving DecidableEq

/-- The parts of an operator schema the walker consults. -/
structure FunctionSchema where
  arguments : List SchemaArg
  returns : List SchemaArg
  isVararg : Bool
  isVarret : Bool
deriving DecidableEq

/-- Node kinds dispatched on by `AliasDb::analyzeImpl`'s switch. -/
inductive NKind where
  | primIf | primLoop | fusionGroup | differentiableGraph
  | constant | listConstruct | tupleConstruct | undefinedK | fusedConcat
  | mmTreeReduce | mmBatchSide | noneK | broadcastSizes | chunkSizes | functionK
  | tupleUnpack | tupleIndex | tupleSlice | listUnpack | pythonOp
  | constantChunk | broadcastingChunk
  | atenAdd | atenSub | atenMul | atenDiv
  | other (sym : Nat)
deriving DecidableEq

mutual
/-- An IR node: kind, unique id, inputs, outputs, nested blocks, optional
schema, optional `attr::Subgraph` block, the `attr::chunks` attribute and
a source location. -/
inductive GNode : Type where
  | mk : NKind → NodeId → List Value → List Value → GBlockList →
      Option FunctionSchema → Option GBlock → Nat → Nat → GNode

/-- An IR block: block inputs, nodes in order, block outputs. -/
inductive GBlock : Type where
  | mk : List Value → GNodeList → List Value → GBlock

/-- A list of nodes (spelled out for structural recursion). -/
inductive GNodeList : Type where
  | nil : GNodeList
  | cons : GNode → GNodeList → GNodeList

/-- A list of blocks (spelled out for structural recursion). -/
inductive GBlockList : Type where
  | nil : GBlockList
  | cons : GBlock → GBlockList → GBlockList
end

def GNode.kind : GNode → NKind
  | .mk k _ _ _ _ _ _ _ _ => k

def GNode.nid : GNode → NodeId
  | .mk _ n _ _ _ _ _ _ _ => n

def GNode.inputs : GNode → List Value
  | .mk _ _ i _ _ _ _ _ _ => i

def GNode.outputs : GNode → List Value
  | .mk _ _ _ o _ _ _ _ _ => o

def GNode.nblocks : GNode → GBlockList
  | .mk _ _ _ _ b _ _ _ _ => b

def GNode.schema : GNode → Option FunctionSchema
  | .mk _ _ _ _ _ s _ _ _ => s

def GNode.subgraphAttr : GNode → Option GBlock
  | .mk _ _ _ _ _ _ g _ _ => g

def GNode.chunksAttr : GNode → Nat
  | .mk _ _ _ _ _ _ _ c _ => c

def GNode.sourceLoc : GNode → Nat
  | .mk _ _ _ _ _ _ _ _ l => l

def GBlock.binputs : GBlock → List Value
  | .mk i _ _ => i

def GBlock.bnodes : GBlock → GNodeList
  | .mk _ n _ => n

def GBlock.boutputs : GBlock → List Value
  | .mk _ _ o => o

/-- Fatal analyzer outcomes: a compiler diagnostic
(`script::ErrorReport`, carrying the node's source location) or an
internal assertion / out-of-range failure. -/
inductive AErr where
  | report (loc : Nat)
  | assertFail
deriving DecidableEq

theorem except_bind_ok {α β ε : Type} (a : α) (f : α → Except ε β) :
    (Except.ok a >>= f) = f a := rfl

theorem except_bind_error {α β ε : Type} (e : ε) (f : α → Except ε β) :
    ((Except.error e : Except ε α) >>= f) = Except.error e := rfl

/-- `container.at(i)`: element access that throws on out-of-range. -/
def listAt {α : Type} (l : List α) (i : Nat) : Except AErr α :=
  match l.get? i with
  | some x => .ok x
  | none => .error .assertFail

/-- `AliasDb::giveFreshAlias`: skip non-annotatable types and values that
already have an element (loop bodies), otherwise make a fresh element. -/
def giveFreshAlias (ty : Value → JType) (s : ATState) (v : Value) : ATState :=
  if ¬shouldAnnotate (ty v) then s
  else if contains s v then s
  else makeFreshValue s v

/-- `AliasDb::makeAliasOf`: for non-annotatable values assert the target
is non-annotatable too and do nothing; otherwise insert the pointer. -/
def makeAliasOf (ty : Value → JType) (s : ATState) (v tgt : Value) : Except AErr ATState :=
  if ¬shouldAnnotate (ty v) then
    if shouldAnnotate (ty tgt) then .error .assertFail else .ok s
  else .ok (makePointerTo s v tgt)

/-- `AliasDb::mapAliases`: pointwise `makeAliasOf` after a size assert. -/
def mapAliases (ty : Value → JType) (fr tos : List Value) (s : ATState) :
    Except AErr ATState :=
  if tos.length = fr.length then
    (List.zip fr tos).foldlM (fun st p => makeAliasOf ty st p.1 p.2) s
  else .error .assertFail

/-- `AliasDb::analyzeCreator`: every output gets a fresh alias. -/
def analyzeCreator (ty : Value → JType) (outputs : List Value) (s : ATState) : ATState :=
  outputs.foldl (fun st v => giveFreshAlias ty st v) s

/-- `AliasDb::analyzeExtractor`: every output becomes a wildcard. -/
def analyzeExtractor (outputs : List Value) (s : ATState) : ATState :=
  outputs.foldl (fun st v => setWildcard st v) s

/-- `AliasDb::analyzeChunk`: every output may alias the single input. -/
def analyzeChunk (ty : Value → JType) (inputs outputs : List Value) (s : ATState) :
    Except AErr ATState := do
  let inp ← listAt inputs 0
  outputs.foldlM (fun st out => makeAliasOf ty st out inp) s

/-- `AliasDb::analyzeBroadcastingChunk`: input `index` is aliased by the
`nchunks` outputs at positions `index*nchunks + k` (iterator overrun is
modelled as a failure). -/
def analyzeBroadcastingChunk (ty : Value → JType) (inputs outputs : List Value)
    (nchunks : Nat) (s : ATState) : Except AErr ATState :=
  (List.range inputs.length).foldlM (fun st index => do
    let inp ← listAt inputs index
    (List.range nchunks).foldlM (fun st2 k => do
      let out ← listAt outputs (index * nchunks + k)
      makeAliasOf ty st2 out inp) st) s

/-- Lookup in the `formalToActual` binding list. -/
def findFormal (sym : Symbol) : List (Symbol × Value) → Option Value
  | [] => none
  | (k, v) :: rest => if k = sym then some v else findFormal sym rest

/-- The vararg/varret validation of `AliasDb::analyzeImpl`: a schema with
variadic inputs or outputs must not produce an annotatable output; if it
does, a compiler diagnostic pointing at the node's source location is
raised. -/
def varargCheck (ty : Value → JType) (sch : FunctionSchema) (outputs : List Value)
    (loc : Nat) : Except AErr Unit :=
  if sch.isVararg || sch.isVarret then
    let hasMutableOutputs := outputs.any (fun o => shouldAnnotate (ty o))
    if hasMutableOutputs then .error (.report loc) else .ok ()
  else .ok ()

/-- The input half of the schema-driven path: bind each formal's alias
set to the actual value, recording writes.  The `.at(i)` access happens
before the annotation test, as in the source. -/
def bindFormals (ty : Value → JType) (nid : NodeId) (inputs : List Value) :
    List SchemaArg → Nat → List (Symbol × Value) → ATState →
    Except AErr (List (Symbol × Value) × ATState)
  | [], _, f2a, s => .ok (f2a, s)
  | arg :: rest, i, f2a, s => do
    let actualValue ← listAt inputs i
    match arg.aliasInfo with
    | none => bindFormals ty nid inputs rest (i + 1) f2a s
    | some formal =>
      if ¬shouldAnnotate (ty actualValue) then
        bindFormals ty nid inputs rest (i + 1) f2a s
      else if formal.numContainedTypes ≠ 0 then .error .assertFail
      else if formal.isWildcard then .error .assertFail
      else do
        let formalAlias ← listAt formal.sets 0
        if (findFormal formalAlias f2a).isSome then
          bindFormals ty nid inputs rest (i + 1) f2a s
        else do
          let s' ← if formal.isWrite then
              match registerWrite s actualValue nid with
              | some st => Except.ok st
              | none => Except.error AErr.assertFail
            else Except.ok s
          bindFormals ty nid inputs rest (i + 1) (f2a ++ [(formalAlias, actualValue)]) s'

/-- One output's alias sets: bound sets make the output point to the
bound actual; an unbound set that is the sole annotation means fresh. -/
def applyRetSets (ty : Value → JType) (actual : Value) (f2a : List (Symbol × Value))
    (numSets : Nat) : List Symbol → ATState → Except AErr ATState
  | [], s => .ok s
  | formalAlias :: rest, s => do
    match findFormal formalAlias f2a with
    | none =>
      if numSets = 1 then
        applyRetSets ty actual f2a numSets rest (giveFreshAlias ty s actual)
      else
        applyRetSets ty actual f2a numSets rest s
    | some toAlias => do
      let s' ← makeAliasOf ty s actual toAlias
      applyRetSets ty actual f2a numSets rest s'

/-- The output half of the schema-driven path. -/
def bindReturns (ty : Value → JType) (nid : NodeId) (outputs : List Value)
    (f2a : List (Symbol × Value)) :
    List SchemaArg → Nat → ATState → Except AErr ATState
  | [], _, s => .ok s
  | ret :: rest, i, s => do
    let actual ← listAt outputs i
    match ret.aliasInfo with
    | none => bindReturns ty nid outputs f2a rest (i + 1) (giveFreshAlias ty s actual)
    | some formal =>
      if ¬shouldAnnotate (ty actual) then bindReturns ty nid outputs f2a rest (i + 1) s
      else if formal.numContainedTypes ≠ 0 then .error .assertFail
      else if formal.isWildcard then
        bindReturns ty nid outputs f2a rest (i + 1) (setWildcard s actual)
      else do
        let s1 ← applyRetSets ty actual f2a formal.sets.length formal.sets s
        let s2 ← if formal.isWrite then
            match registerWrite s1 actual nid with
            | some st => Except.ok st
            | none => Except.error AErr.assertFail
          else Except.ok s1
        bindReturns ty nid outputs f2a rest (i + 1) s2

/-- The default schema-driven analysis: vararg validation, formal
binding, then output aliasing. -/
def analyzeSchemaPath (ty : Value → JType) (nid : NodeId) (inputs outputs : List Value)
    (loc : Nat) (sch : FunctionSchema) (s : ATState) : Except AErr ATState := do
  let _ ← varargCheck ty sch outputs loc
  let (f2a, s1) ← bindFormals ty nid inputs sch.arguments 0 [] s
  bindReturns ty nid outputs f2a sch.returns 0 s1

/-- The per-output loop of `AliasDb::analyzeIf`: output `i` points to the
`i`-th output of both the true and the false block. -/
def analyzeIfOutputs (ty : Value → JType) (tOuts fOuts : List Value) :
    List Value → Nat → ATState → Except AErr ATState
  | [], _, s => .ok s
  | out :: rest, i, s => do
    let trueOutput ← listAt tOuts i
    let falseOutput ← listAt fOuts i
    let s1 ← makeAliasOf ty s out trueOutput
    let s2 ← makeAliasOf ty s1 out falseOutput
    analyzeIfOutputs ty tOuts fOuts rest (i + 1) s2

/-- The output-mapping loop of `AliasDb::analyzeSubgraph`: only the first
`node.outputs.size()` inner outputs are mapped. -/
def mapOutputsPrefix (ty : Value → JType) (innerOuts : List Value) :
    List Value → Nat → ATState → Except AErr ATState
  | [], _, s => .ok s
  | out :: rest, i, s => do
    let innerOut ← listAt innerOuts i
    let s1 ← makeAliasOf ty s out innerOut
    mapOutputsPrefix ty innerOuts rest (i + 1) s1

mutual

/-- `AliasDb::analyze(Block*)`: analyze the block's nodes in order. -/
def analyzeBlock (ty : Value → JType) : GBlock → ATState → Except AErr ATState
  | .mk _ nodes _, s => analyzeNodeList ty nodes s

/-- The node loop of `AliasDb::analyze(Block*)`. -/
def analyzeNodeList (ty : Value → JType) : GNodeList → ATState → Except AErr ATState
  | .nil, s => .ok s
  | .cons n rest, s =>
    match analyzeImpl ty n s with
    | .ok s1 => analyzeNodeList ty rest s1
    | .error e => .error e

/-- `AliasDb::analyzeIf`: analyze both branches, then each output points
to the corresponding output of both blocks. -/
def analyzeIf (ty : Value → JType) (outputs : List Value) :
    GBlockList → ATState → Except AErr ATState
  | .cons trueBlock (.cons falseBlock _), s =>
    match analyzeBlock ty trueBlock s with
    | .error e => .error e
    | .ok s1 =>
      match analyzeBlock ty falseBlock s1 with
      | .error e => .error e
      | .ok s2 =>
        analyzeIfOutputs ty trueBlock.boutputs falseBlock.boutputs outputs 0 s2
  | _, _ => .error .assertFail

/-- `AliasDb::analyzeLoop`: map loop-carried inputs onto the body's
inputs, analyze the body once, map the body outputs back. -/
def analyzeLoop (ty : Value → JType) (inputs outputs : List Value) :
    GBlockList → ATState → Except AErr ATState
  | .cons bodyBlock _, s =>
    if (bodyBlock.binputs.drop 1).length = (inputs.drop 2).length then
      if (bodyBlock.boutputs.drop 1).length = outputs.length then
        match mapAliases ty (bodyBlock.binputs.drop 1) (inputs.drop 2) s with
        | .error e => .error e
        | .ok s1 =>
          match analyzeBlock ty bodyBlock s1 with
          | .error e => .error e
          | .ok s2 => mapAliases ty outputs (bodyBlock.boutputs.drop 1) s2
      else .error .assertFail
    else .error .assertFail
  | .nil, _ => .error .assertFail

/-- `AliasDb::analyzeSubgraph`: map outer inputs to inner block inputs,
analyze the inner block, map the first `outputs.size()` inner outputs
back. -/
def analyzeSubgraph (ty : Value → JType) (inputs outputs : List Value) :
    Option GBlock → ATState → Except AErr ATState
  | some subgraphBlock, s =>
    match mapAliases ty subgraphBlock.binputs inputs s with
    | .error e => .error e
    | .ok s1 =>
      match analyzeBlock ty subgraphBlock s1 with
      | .error e => .error e
      | .ok s2 =>
        if outputs.length ≤ subgraphBlock.boutputs.length then
          mapOutputsPrefix ty subgraphBlock.boutputs outputs 0 s2
        else .error .assertFail
  | none, _ => .error .assertFail

/-- `AliasDb::analyzeImpl`: the node-kind dispatch; unhandled kinds go to
the schema-driven path after the vararg validation. -/
def analyzeImpl (ty : Value → JType) : GNode → ATState → Except AErr ATState
  | .mk kind nid inputs outputs blocks schema subgraph chunks loc, s =>
    match kind with
    | .primIf => analyzeIf ty outputs blocks s
    | .primLoop => analyzeLoop ty inputs outputs blocks s
    | .fusionGroup => analyzeSubgraph ty inputs outputs subgraph s
    | .differentiableGraph => analyzeSubgraph ty inputs outputs subgraph s
    | .constant => .ok (analyzeCreator ty outputs s)
    | .listConstruct => .ok (analyzeCreator ty outputs s)
    | .tupleConstruct => .ok (analyzeCreator ty outputs s)
    | .undefinedK => .ok (analyzeCreator ty outputs s)
    | .fusedConcat => .ok (analyzeCreator ty outputs s)
    | .mmTreeReduce => .ok (analyzeCreator ty outputs s)
    | .mmBatchSide => .ok (analyzeCreator ty outputs s)
    | .noneK => .ok (analyzeCreator ty outputs s)
    | .broadcastSizes => .ok (analyzeCreator ty outputs s)
    | .chunkSizes => .ok (analyzeCreator ty outputs s)
    | .functionK => .ok (analyzeCreator ty outputs s)
    | .tupleUnpack => .ok (analyzeExtractor outputs s)
    | .tupleIndex => .ok (analyzeExtractor outputs s)
    | .tupleSlice => .ok (analyzeExtractor outputs s)
    | .listUnpack => .ok (analyzeExtractor outputs s)
    | .pythonOp => .ok (analyzeExtractor outputs s)
    | .constantChunk => analyzeChunk ty inputs outputs s
    | .broadcastingChunk => analyzeBroadcastingChunk ty inputs outputs chunks s
    | .atenAdd =>
      match schema with
      | none => .ok (analyzeCreator ty outputs s)
      | some sch => analyzeSchemaPath ty nid inputs outputs loc sch s
    | .atenSub =>
      match schema with
      | none => .ok (analyzeCreator ty outputs s)
      | some sch => analyzeSchemaPath ty nid inputs outputs loc sch s
    | .atenMul =>
      match schema with
      | none => .ok (analyzeCreator ty outputs s)
      | some sch => analyzeSchemaPath ty nid inputs outputs loc sch s
    | .atenDiv =>
      match schema with
      | none => .ok (analyzeCreator ty outputs s)
      | some sch => analyzeSchemaPath ty nid inputs outputs loc sch s
    | .other _ =>
      match schema with
      | none => .error .assertFail
      | some sch => analyzeSchemaPath ty nid inputs outputs loc sch s

end

/-- The `TypeKind` tag used to key list-input partitions in
`AliasDb::analyze`. -/
def typeKindTag : JType → Nat
  | .tensor => 0
  | .listT _ => 1
  | .tupleT _ => 2
  | .optionalT _ => 3
  | .varT => 4
  | .primT t => 5 + t

/-- One level of optional unwrapping, as in `AliasDb::analyze`'s input
partitioning. -/
def unwrapOptional : JType → JType
  | .optionalT e => e
  | t => t

/-- The partition an input falls into during `AliasDb::analyze`'s seed
phase: all tensors together, lists keyed by contained type kind (tensor
subtypes collapsed to tensor), tuples keyed by tuple-type identity;
`none` for inputs that fit no partition. -/
def partitionKey (t : JType) : Option Nat :=
  match unwrapOptional t with
  | .tensor => some 0
  | .listT e => some (2 * typeKindTag (if e = .tensor then .tensor else e) + 1)
  | .tupleT tag => some (2 * tag + 2)
  | _ => none

/-- `makeAllAlias`: a fresh element for the first value, then every value
of the partition points to it. -/
def makeAllAlias (values : List Value) (s : ATState) : ATState :=
  match values with
  | [] => s
  | v0 :: _ =>
    let s1 := makeFreshValue s v0
    values.foldl (fun st v => makePointerTo st v v0) s1

/-- A graph: the typing of its values, its inputs, and its top block. -/
structure JGraph where
  ty : Value → JType
  ginputs : List Value
  top : GBlock

/-- The `AT_ASSERT(!shouldAnnotate(input))` of the partition loop: every
annotatable input must fall into some partition. -/
def checkInputsPartitionable (g : JGraph) : Except AErr Unit :=
  if g.ginputs.all (fun v => ((partitionKey (g.ty v)).isSome || !shouldAnnotate (g.ty v))) then
    .ok ()
  else .error .assertFail

/-- The partition keys present among the graph inputs. -/
def seedPartitions (g : JGraph) : List Nat :=
  (g.ginputs.filterMap (fun v => partitionKey (g.ty v))).dedup

/-- The seed phase of `AliasDb::analyze(Graph)`: partition the inputs by
type and make each partition alias each other. -/
def seedInputs (g : JGraph) : Except AErr ATState := do
  let _ ← checkInputsPartitionable g
  .ok ((seedPartitions g).foldl
    (fun st k => makeAllAlias (g.ginputs.filter (fun v => partitionKey (g.ty v) = some k)) st)
    emptyState)

/-- `AliasDb::analyze(Graph)`, the whole construction-time analysis: seed
the inputs, then analyze the top block. -/
def analyzeGraph (g : JGraph) : Except AErr ATState := do
  let s ← seedInputs g
  analyzeBlock g.ty g.top s

/-! ## The analyzer preserves the invariant and only adds -/

theorem stepOK_makeFreshValue {s : ATState} (hInv : Inv s) (v : Value) :
    Inv (makeFreshValue s v) ∧ Extends s (makeFreshValue s v) :=
  ⟨inv_makeFreshValue hInv v, extends_makeFreshValue s v⟩

theorem stepOK_makePointerTo {s : ATState} (hInv : Inv s) (v tgt : Value) :
    Inv (makePointerTo s v tgt) ∧ Extends s (makePointerTo s v tgt) :=
  ⟨inv_makePointerTo hInv v tgt, extends_makePointerTo s v tgt⟩

theorem stepOK_setWildcard {s : ATState} (hInv : Inv s) (v : Value) :
    Inv (setWildcard s v) ∧ Extends s (setWildcard s v) :=
  ⟨inv_setWildcard hInv v, extends_setWildcard s v⟩

theorem stepOK_giveFreshAlias {ty : Value → JType} {s : ATState} (hInv : Inv s) (v : Value) :
    Inv (giveFreshAlias ty s v) ∧ Extends s (giveFreshAlias ty s v) := by
  unfold giveFreshAlias
  by_cases h1 : shouldAnnotate (ty v)
  · simp only [h1, not_true, if_false]
    by_cases h2 : contains s v
    · simpa [h2] using ⟨hInv, Extends.rfl s⟩
    · simpa [h2] using stepOK_makeFreshValue hInv v
  · simpa [h1] using ⟨hInv, Extends.rfl s⟩

theorem stepOK_registerWrite {s s' : ATState} (hInv : Inv s) {v : Value} {n : NodeId}
    (h : registerWrite s v n = some s') : Inv s' ∧ Extends s s' :=
  ⟨inv_registerWrite hInv h, extends_registerWrite h⟩

theorem stepOK_makeAliasOf {ty : Value → JType} {s s' : ATState} (hInv : Inv s)
    {v tgt : Value} (h : makeAliasOf ty s v tgt = .ok s') : Inv s' ∧ Extends s s' := by
  unfold makeAliasOf at h
  by_cases h1 : shouldAnnotate (ty v)
  · simp only [h1, not_true, if_false] at h
    obtain rfl : makePointerTo s v tgt = s' := Except.ok.injEq .. ▸ h
    exact stepOK_makePointerTo hInv v tgt
  · simp only [h1, not_false_iff, if_true] at h
    by_cases h2 : shouldAnnotate (ty tgt)
    · rw [if_pos h2] at h
      exact absurd h (by simp)
    · rw [if_neg h2] at h
      obtain rfl : s = s' := Except.ok.injEq .. ▸ h
      exact ⟨hInv, Extends.rfl s⟩

theorem stepOK_foldlM {α : Type} {f : ATState → α → Except AErr ATState}
    (hstep : ∀ s x s', Inv s → f s x = .ok s' → Inv s' ∧ Extends s s') :
    ∀ (l : List α) (s s' : ATState), Inv s → l.foldlM f s = .ok s' →
      Inv s' ∧ Extends s s' := by
  intro l
  induction l with
  | nil =>
    intro s s' hInv h
    obtain rfl : s = s' := by simpa [List.foldlM_nil, pure, Except.pure] using h
    exact ⟨hInv, Extends.rfl s⟩
  | cons x rest ih =>
    intro s s' hInv h
    simp only [List.foldlM_cons] at h
    cases hx : f s x with
    | error e =>
      rw [hx] at h
      simp only [Bind.bind, Except.bind] at h
      exact absurd h (by simp)
    | ok s1 =>
      rw [hx] at h
      simp only [Bind.bind, Except.bind] at h
      obtain ⟨hInv1, hExt1⟩ := hstep s x s1 hInv hx
      obtain ⟨hInv2, hExt2⟩ := ih s1 s' hInv1 h
      exact ⟨hInv2, Extends.trans hExt1 hExt2⟩

theorem stepOK_foldl_pure {α : Type} {f : ATState → α → ATState}
    (hstep : ∀ s x, Inv s → Inv (f s x) ∧ Extends s (f s x)) :
    ∀ (l : List α) (s : ATState), Inv s → Inv (l.foldl f s) ∧ Extends s (l.foldl f s) := by
  intro l
  induction l with
  | nil => intro s hInv; exact ⟨hInv, Extends.rfl s⟩
  | cons x rest ih =>
    intro s hInv
    obtain ⟨hInv1, hExt1⟩ := hstep s x hInv
    obtain ⟨hInv2, hExt2⟩ := ih (f s x) hInv1
    exact ⟨hInv2, Extends.trans hExt1 hExt2⟩

theorem stepOK_mapAliases {ty : Value → JType} {fr tos : List Value} {s s' : ATState}
    (hInv : Inv s) (h : mapAliases ty fr tos s = .ok s') : Inv s' ∧ Extends s s' := by
  unfold mapAliases at h
  by_cases hlen : tos.length = fr.length
  · rw [if_pos hlen] at h
    exact stepOK_foldlM (fun s x s' hI hx => stepOK_makeAliasOf hI hx) _ s s' hInv h
  · rw [if_neg hlen] at h
    exact absurd h (by simp)

theorem stepOK_analyzeCreator {ty : Value → JType} (outputs : List Value) {s : ATState}
    (hInv : Inv s) :
    Inv (analyzeCreator ty outputs s) ∧ Extends s (analyzeCreator ty outputs s) :=
  stepOK_foldl_pure (fun s v hI => stepOK_giveFreshAlias hI v) outputs s hInv

theorem stepOK_analyzeExtractor (outputs : List Value) {s : ATState} (hInv : Inv s) :
    Inv (analyzeExtractor outputs s) ∧ Extends s (analyzeExtractor outputs s) :=
  stepOK_foldl_pure (fun s v hI => stepOK_setWildcard hI v) outputs s hInv

theorem stepOK_analyzeChunk {ty : Value → JType} {inputs outputs : List Value}
    {s s' : ATState} (hInv : Inv s) (h : analyzeChunk ty inputs outputs s = .ok s') :
    Inv s' ∧ Extends s s' := by
  unfold analyzeChunk at h
  cases hat : listAt inputs 0 with
  | error e =>
    rw [hat] at h
    simp only [Bind.bind, Except.bind] at h
    exact absurd h (by simp)
  | ok inp =>
    rw [hat] at h
    simp only [Bind.bind, Except.bind] at h
    exact stepOK_foldlM (fun s x s' hI hx => stepOK_makeAliasOf hI hx) _ s s' hInv h

theorem stepOK_analyzeBroadcastingChunk {ty : Value → JType} {inputs outputs : List Value}
    {nchunks : Nat} {s s' : ATState} (hInv : Inv s)
    (h : analyzeBroadcastingChunk ty inputs outputs nchunks s = .ok s') :
    Inv s' ∧ Extends s s' := by
  unfold analyzeBroadcastingChunk at h
  refine stepOK_foldlM ?_ _ s s' hInv h
  intro s1 index s2 hI hx
  simp only at hx
  cases hat : listAt inputs index with
  | error e =>
    rw [hat] at hx
    simp only [Bind.bind, Except.bind] at hx
    exact absurd hx (by simp)
  | ok inp =>
    rw [hat] at hx
    simp only [Bind.bind, Except.bind] at hx
    refine stepOK_foldlM ?_ _ s1 s2 hI hx
    intro s3 k s4 hI3 hk
    simp only at hk
    cases hat2 : listAt outputs (index * nchunks + k) with
    | error e =>
      rw [hat2] at hk
      simp only [Bind.bind, Except.bind] at hk
      exact absurd hk (by simp)
    | ok out =>
      rw [hat2] at hk
      simp only [Bind.bind, Except.bind] at hk
      exact stepOK_makeAliasOf hI3 hk

theorem stepOK_applyRetSets {ty : Value → JType} {actual : Value}
    {f2a : List (Symbol × Value)} {numSets : Nat} :
    ∀ (sets : List Symbol) (s s' : ATState), Inv s →
      applyRetSets ty actual f2a numSets sets s = .ok s' → Inv s' ∧ Extends s s' := by
  intro sets
  induction sets with
  | nil =>
    intro s s' hInv h
    obtain rfl : s = s' := Except.ok.injEq .. ▸ h
    exact ⟨hInv, Extends.rfl s⟩
  | cons formalAlias rest ih =>
    intro s s' hInv h
    unfold applyRetSets at h
    cases hfind : findFormal formalAlias f2a with
    | none =>
      rw [hfind] at h
      simp only at h
      by_cases hn : numSets = 1
      · rw [if_pos hn] at h
        obtain ⟨hI1, hE1⟩ := stepOK_giveFreshAlias hInv actual
        obtain ⟨hI2, hE2⟩ := ih _ s' hI1 h
        exact ⟨hI2, Extends.trans hE1 hE2⟩
      · rw [if_neg hn] at h
        exact ih s s' hInv h
    | some toAlias =>
      rw [hfind] at h
      simp only [Bind.bind, Except.bind] at h
      cases hma : makeAliasOf ty s actual toAlias with
      | error e => rw [hma] at h; exact absurd h (by simp)
      | ok s1 =>
        rw [hma] at h
        obtain ⟨hI1, hE1⟩ := stepOK_makeAliasOf hInv hma
        obtain ⟨hI2, hE2⟩ := ih s1 s' hI1 h
        exact ⟨hI2, Extends.trans hE1 hE2⟩

theorem stepOK_writeStep {s s' : ATState} (hInv : Inv s) {w : Bool} {v : Value} {n : NodeId}
    (h : (if w then
        match registerWrite s v n with
        | some st => Except.ok st
        | none => Except.error AErr.assertFail
      else Except.ok s) = .ok s') : Inv s' ∧ Extends s s' := by
  by_cases hw : w
  · rw [if_pos hw] at h
    cases hr : registerWrite s v n with
    | none => rw [hr] at h; exact absurd h (by simp)
    | some st =>
      rw [hr] at h
      obtain rfl : st = s' := Except.ok.injEq .. ▸ h
      exact stepOK_registerWrite hInv hr
  · rw [if_neg hw] at h
    obtain rfl : s = s' := Except.ok.injEq .. ▸ h
    exact ⟨hInv, Extends.rfl s⟩

theorem stepOK_bindFormals {ty : Value → JType} {nid : NodeId} {inputs : List Value} :
    ∀ (args : List SchemaArg) (i : Nat) (f2a : List (Symbol × Value)) (s : ATState)
      (out : List (Symbol × Value) × ATState), Inv s →
      bindFormals ty nid inputs args i f2a s = .ok out → Inv out.2 ∧ Extends s out.2 := by
  intro args
  induction args with
  | nil =>
    intro i f2a s out hInv h
    obtain rfl : (f2a, s) = out := Except.ok.injEq .. ▸ h
    exact ⟨hInv, Extends.rfl s⟩
  | cons arg rest ih =>
    intro i f2a s out hInv h
    unfold bindFormals at h
    cases hat : listAt inputs i with
    | error e =>
      rw [hat, except_bind_error] at h
      exact absurd h (by simp)
    | ok actualValue =>
      rw [hat, except_bind_ok] at h
      cases harg : arg.aliasInfo with
      | none =>
        rw [harg] at h
        exact ih _ _ s out hInv h
      | some formal =>
        rw [harg] at h
        simp only at h
        by_cases hann : shouldAnnotate (ty actualValue)
        · rw [if_neg (fun hc => hc hann)] at h
          by_cases hct : formal.numContainedTypes = 0
          · rw [if_neg (fun hc => hc hct)] at h
            by_cases hwc : formal.isWildcard
            · rw [if_pos hwc] at h
              exact absurd h (by simp)
            · rw [if_neg hwc] at h
              cases hset : listAt formal.sets 0 with
              | error e =>
                rw [hset, except_bind_error] at h
                exact absurd h (by simp)
              | ok formalAlias =>
                rw [hset, except_bind_ok] at h
                by_cases hbound : (findFormal formalAlias f2a).isSome
                · rw [if_pos hbound] at h
                  exact ih _ _ s out hInv h
                · rw [if_neg hbound] at h
                  by_cases hwrite : formal.isWrite
                  · rw [if_pos hwrite] at h
                    cases hr : registerWrite s actualValue nid with
                    | none =>
                      rw [hr] at h
                      simp only at h
                      rw [except_bind_error] at h
                      exact absurd h (by simp)
                    | some s1 =>
                      rw [hr] at h
                      simp only at h
                      rw [except_bind_ok] at h
                      obtain ⟨hI1, hE1⟩ := stepOK_registerWrite hInv hr
                      obtain ⟨hI2, hE2⟩ := ih _ _ s1 out hI1 h
                      exact ⟨hI2, Extends.trans hE1 hE2⟩
                  · rw [if_neg hwrite, except_bind_ok] at h
                    exact ih _ _ s out hInv h
          · rw [if_pos hct] at h
            exact absurd h (by simp)
        · rw [if_pos hann] at h
          exact ih _ _ s out hInv h

theorem stepOK_bindReturns {ty : Value → JType} {nid : NodeId} {outputs : List Value}
    {f2a : List (Symbol × Value)} :
    ∀ (rets : List SchemaArg) (i : Nat) (s s' : ATState), Inv s →
      bindReturns ty nid outputs f2a rets i s = .ok s' → Inv s' ∧ Extends s s' := by
  intro rets
  induction rets with
  | nil =>
    intro i s s' hInv h
    obtain rfl : s = s' := Except.ok.injEq .. ▸ h
    exact ⟨hInv, Extends.rfl s⟩
  | cons ret rest ih =>
    intro i s s' hInv h
    unfold bindReturns at h
    cases hat : listAt outputs i with
    | error e =>
      rw [hat, except_bind_error] at h
      exact absurd h (by simp)
    | ok actual =>
      rw [hat, except_bind_ok] at h
      cases harg : ret.aliasInfo with
      | none =>
        rw [harg] at h
        obtain ⟨hI1, hE1⟩ := stepOK_giveFreshAlias hInv actual
        obtain ⟨hI2, hE2⟩ := ih _ _ s' hI1 h
        exact ⟨hI2, Extends.trans hE1 hE2⟩
      | some formal =>
        rw [harg] at h
        simp only at h
        by_cases hann : shouldAnnotate (ty actual)
        · rw [if_neg (fun hc => hc hann)] at h
          by_cases hct : formal.numContainedTypes = 0
          · rw [if_neg (fun hc => hc hct)] at h
            by_cases hwc : formal.isWildcard
            · rw [if_pos hwc] at h
              obtain ⟨hI1, hE1⟩ := stepOK_setWildcard hInv actual
              obtain ⟨hI2, hE2⟩ := ih _ _ s' hI1 h
              exact ⟨hI2, Extends.trans hE1 hE2⟩
            · rw [if_neg hwc] at h
              cases hsets : applyRetSets ty actual f2a formal.sets.length formal.sets s with
              | error e =>
                rw [hsets, except_bind_error] at h
                exact absurd h (by simp)
              | ok s1 =>
                rw [hsets, except_bind_ok] at h
                obtain ⟨hI1, hE1⟩ := stepOK_applyRetSets formal.sets s s1 hInv hsets
                by_cases hwrite : formal.isWrite
                · rw [if_pos hwrite] at h
                  cases hr : registerWrite s1 actual nid with
                  | none =>
                    rw [hr] at h
                    simp only at h
                    rw [except_bind_error] at h
                    exact absurd h (by simp)
                  | some s2 =>
                    rw [hr] at h
                    simp only at h
                    rw [except_bind_ok] at h
                    obtain ⟨hI2, hE2⟩ := stepOK_registerWrite hI1 hr
                    obtain ⟨hI3, hE3⟩ := ih _ _ s' hI2 h
                    exact ⟨hI3, Extends.trans (Extends.trans hE1 hE2) hE3⟩
                · rw [if_neg hwrite, except_bind_ok] at h
                  obtain ⟨hI3, hE3⟩ := ih _ _ s' hI1 h
                  exact ⟨hI3, Extends.trans hE1 hE3⟩
          · rw [if_pos hct] at h
            exact absurd h (by simp)
        · rw [if_pos hann] at h
          exact ih _ _ s' hInv h

theorem stepOK_analyzeSchemaPath {ty : Value → JType} {nid : NodeId}
    {inputs outputs : List Value} {loc : Nat} {sch : FunctionSchema} {s s' : ATState}
    (hInv : Inv s) (h : analyzeSchemaPath ty nid inputs outputs loc sch s = .ok s') :
    Inv s' ∧ Extends s s' := by
  unfold analyzeSchemaPath at h
  simp only [Bind.bind, Except.bind] at h
  cases hvc : varargCheck ty sch outputs loc with
  | error e => rw [hvc] at h; exact absurd h (by simp)
  | ok u =>
    rw [hvc] at h
    cases hbf : bindFormals ty nid inputs sch.arguments 0 [] s with
    | error e => rw [hbf] at h; exact absurd h (by simp)
    | ok p =>
      rw [hbf] at h
      obtain ⟨hI1, hE1⟩ := stepOK_bindFormals sch.arguments 0 [] s p hInv hbf
      obtain ⟨hI2, hE2⟩ := stepOK_bindReturns sch.returns 0 p.2 s' hI1 h
      exact ⟨hI2, Extends.trans hE1 hE2⟩

theorem stepOK_analyzeIfOutputs {ty : Value → JType} {tOuts fOuts : List Value} :
    ∀ (outs : List Value) (i : Nat) (s s' : ATState), Inv s →
      analyzeIfOutputs ty tOuts fOuts outs i s = .ok s' → Inv s' ∧ Extends s s' := by
  intro outs
  induction outs with
  | nil =>
    intro i s s' hInv h
    obtain rfl : s = s' := Except.ok.injEq .. ▸ h
    exact ⟨hInv, Extends.rfl s⟩
  | cons out rest ih =>
    intro i s s' hInv h
    unfold analyzeIfOutputs at h
    cases h1 : listAt tOuts i with
    | error e =>
      rw [h1, except_bind_error] at h
      exact absurd h (by simp)
    | ok trueOutput =>
      rw [h1, except_bind_ok] at h
      cases h2 : listAt fOuts i with
      | error e =>
        rw [h2, except_bind_error] at h
        exact absurd h (by simp)
      | ok falseOutput =>
        rw [h2, except_bind_ok] at h
        cases h3 : makeAliasOf ty s out trueOutput with
        | error e =>
          rw [h3, except_bind_error] at h
          exact absurd h (by simp)
        | ok s1 =>
          rw [h3, except_bind_ok] at h
          cases h4 : makeAliasOf ty s1 out falseOutput with
          | error e =>
            rw [h4, except_bind_error] at h
            exact absurd h (by simp)
          | ok s2 =>
            rw [h4, except_bind_ok] at h
            obtain ⟨hI1, hE1⟩ := stepOK_makeAliasOf hInv h3
            obtain ⟨hI2, hE2⟩ := stepOK_makeAliasOf hI1 h4
            obtain ⟨hI3, hE3⟩ := ih _ s2 s' hI2 h
            exact ⟨hI3, Extends.trans (Extends.trans hE1 hE2) hE3⟩

theorem stepOK_mapOutputsPrefix {ty : Value → JType} {innerOuts : List Value} :
    ∀ (outs : List Value) (i : Nat) (s s' : ATState), Inv s →
      mapOutputsPrefix ty innerOuts outs i s = .ok s' → Inv s' ∧ Extends s s' := by
  intro outs
  induction outs with
  | nil =>
    intro i s s' hInv h
    obtain rfl : s = s' := Except.ok.injEq .. ▸ h
    exact ⟨hInv, Extends.rfl s⟩
  | cons out rest ih =>
    intro i s s' hInv h
    unfold mapOutputsPrefix at h
    cases h1 : listAt innerOuts i with
    | error e =>
      rw [h1, except_bind_error] at h
      exact absurd h (by simp)
    | ok innerOut =>
      rw [h1, except_bind_ok] at h
      cases h2 : makeAliasOf ty s out innerOut with
      | error e =>
        rw [h2, except_bind_error] at h
        exact absurd h (by simp)
      | ok s1 =>
        rw [h2, except_bind_ok] at h
        obtain ⟨hI1, hE1⟩ := stepOK_makeAliasOf hInv h2
        obtain ⟨hI2, hE2⟩ := ih _ s1 s' hI1 h
        exact ⟨hI2, Extends.trans hE1 hE2⟩

mutual

theorem stepOK_analyzeBlock (ty : Value → JType) :
    ∀ (b : GBlock) (s s' : ATState), Inv s → analyzeBlock ty b s = .ok s' →
      Inv s' ∧ Extends s s'
  | .mk bi nodes bo, s, s', hInv, h => by
    unfold analyzeBlock at h
    exact stepOK_analyzeNodeList ty nodes s s' hInv h

theorem stepOK_analyzeNodeList (ty : Value → JType) :
    ∀ (ns : GNodeList) (s s' : ATState), Inv s → analyzeNodeList ty ns s = .ok s' →
      Inv s' ∧ Extends s s'
  | .nil, s, s', hInv, h => by
    unfold analyzeNodeList at h
    obtain rfl : s = s' := Except.ok.injEq .. ▸ h
    exact ⟨hInv, Extends.rfl s⟩
  | .cons n rest, s, s', hInv, h => by
    unfold analyzeNodeList at h
    cases hn : analyzeImpl ty n s with
    | error e =>
      rw [hn] at h
      exact absurd h (by simp)
    | ok s1 =>
      rw [hn] at h
      simp only at h
      obtain ⟨hI1, hE1⟩ := stepOK_analyzeImpl ty n s s1 hInv hn
      obtain ⟨hI2, hE2⟩ := stepOK_analyzeNodeList ty rest s1 s' hI1 h
      exact ⟨hI2, Extends.trans hE1 hE2⟩

theorem stepOK_analyzeIf (ty : Value → JType) (outputs : List Value) :
    ∀ (bs : GBlockList) (s s' : ATState), Inv s → analyzeIf ty outputs bs s = .ok s' →
      Inv s' ∧ Extends s s'
  | .nil, s, s', hInv, h => by
    unfold analyzeIf at h
    exact absurd h (by simp)
  | .cons tb .nil, s, s', hInv, h => by
    unfold analyzeIf at h
    exact absurd h (by simp)
  | .cons tb (.cons fb restb), s, s', hInv, h => by
    unfold analyzeIf at h
    cases h1 : analyzeBlock ty tb s with
    | error e =>
      rw [h1] at h
      exact absurd h (by simp)
    | ok s1 =>
      rw [h1] at h
      simp only at h
      cases h2 : analyzeBlock ty fb s1 with
      | error e =>
        rw [h2] at h
        exact absurd h (by simp)
      | ok s2 =>
        rw [h2] at h
        simp only at h
        obtain ⟨hI1, hE1⟩ := stepOK_analyzeBlock ty tb s s1 hInv h1
        obtain ⟨hI2, hE2⟩ := stepOK_analyzeBlock ty fb s1 s2 hI1 h2
        obtain ⟨hI3, hE3⟩ := stepOK_analyzeIfOutputs outputs 0 s2 s' hI2 h
        exact ⟨hI3, Extends.trans (Extends.trans hE1 hE2) hE3⟩

theorem stepOK_analyzeLoop (ty : Value → JType) (inputs outputs : List Value) :
    ∀ (bs : GBlockList) (s s' : ATState), Inv s →
      analyzeLoop ty inputs outputs bs s = .ok s' → Inv s' ∧ Extends s s'
  | .nil, s, s', hInv, h => by
    unfold analyzeLoop at h
    exact absurd h (by simp)
  | .cons bodyBlock restb, s, s', hInv, h => by
    unfold analyzeLoop at h
    by_cases hl1 : (bodyBlock.binputs.drop 1).length = (inputs.drop 2).length
    · rw [if_pos hl1] at h
      by_cases hl2 : (bodyBlock.boutputs.drop 1).length = outputs.length
      · rw [if_pos hl2] at h
        cases h1 : mapAliases ty (bodyBlock.binputs.drop 1) (inputs.drop 2) s with
        | error e =>
          rw [h1] at h
          exact absurd h (by simp)
        | ok s1 =>
          rw [h1] at h
          simp only at h
          cases h2 : analyzeBlock ty bodyBlock s1 with
          | error e =>
            rw [h2] at h
            exact absurd h (by simp)
          | ok s2 =>
            rw [h2] at h
            simp only at h
            obtain ⟨hI1, hE1⟩ := stepOK_mapAliases hInv h1
            obtain ⟨hI2, hE2⟩ := stepOK_analyzeBlock ty bodyBlock s1 s2 hI1 h2
            obtain ⟨hI3, hE3⟩ := stepOK_mapAliases hI2 h
            exact ⟨hI3, Extends.trans (Extends.trans hE1 hE2) hE3⟩
      · rw [if_neg hl2] at h
        exact absurd h (by simp)
    · rw [if_neg hl1] at h
      exact absurd h (by simp)

theorem stepOK_analyzeSubgraph (ty : Value → JType) (inputs outputs : List Value) :
    ∀ (sg : Option GBlock) (s s' : ATState), Inv s →
      analyzeSubgraph ty inputs outputs sg s = .ok s' → Inv s' ∧ Extends s s'
  | none, s, s', hInv, h => by
    unfold analyzeSubgraph at h
    exact absurd h (by simp)
  | some subgraphBlock, s, s', hInv, h => by
    unfold analyzeSubgraph at h
    cases h1 : mapAliases ty subgraphBlock.binputs inputs s with
    | error e =>
      rw [h1] at h
      exact absurd h (by simp)
    | ok s1 =>
      rw [h1] at h
      simp only at h
      cases h2 : analyzeBlock ty subgraphBlock s1 with
      | error e =>
        rw [h2] at h
        exact absurd h (by simp)
      | ok s2 =>
        rw [h2] at h
        simp only at h
        by_cases hlen : outputs.length ≤ subgraphBlock.boutputs.length
        · rw [if_pos hlen] at h
          obtain ⟨hI1, hE1⟩ := stepOK_mapAliases hInv h1
          obtain ⟨hI2, hE2⟩ := stepOK_analyzeBlock ty subgraphBlock s1 s2 hI1 h2
          obtain ⟨hI3, hE3⟩ := stepOK_mapOutputsPrefix outputs 0 s2 s' hI2 h
          exact ⟨hI3, Extends.trans (Extends.trans hE1 hE2) hE3⟩
        · rw [if_neg hlen] at h
          exact absurd h (by simp)

theorem stepOK_analyzeImpl (ty : Value → JType) :
    ∀ (n : GNode) (s s' : ATState), Inv s → analyzeImpl ty n s = .ok s' →
      Inv s' ∧ Extends s s'
  | .mk kind nid inputs outputs blocks schema subgraph chunks loc, s, s', hInv, h => by
    unfold analyzeImpl at h
    cases kind with
    | primIf => exact stepOK_analyzeIf ty outputs blocks s s' hInv h
    | primLoop => exact stepOK_analyzeLoop ty inputs outputs blocks s s' hInv h
    | fusionGroup => exact stepOK_analyzeSubgraph ty inputs outputs subgraph s s' hInv h
    | differentiableGraph => exact stepOK_analyzeSubgraph ty inputs outputs subgraph s s' hInv h
    | constant =>
      have h2 : Except.ok (analyzeCreator ty outputs s) = Except.ok s' := h
      obtain rfl : analyzeCreator ty outputs s = s' := Except.ok.injEq .. ▸ h2
      exact stepOK_analyzeCreator outputs hInv
    | listConstruct =>
      have h2 : Except.ok (analyzeCreator ty outputs s) = Except.ok s' := h
      obtain rfl : analyzeCreator ty outputs s = s' := Except.ok.injEq .. ▸ h2
      exact stepOK_analyzeCreator outputs hInv
    | tupleConstruct =>
      have h2 : Except.ok (analyzeCreator ty outputs s) = Except.ok s' := h
      obtain rfl : analyzeCreator ty outputs s = s' := Except.ok.injEq .. ▸ h2
      exact stepOK_analyzeCreator outputs hInv
    | undefinedK =>
      have h2 : Except.ok (analyzeCreator ty outputs s) = Except.ok s' := h
      obtain rfl : analyzeCreator ty outputs s = s' := Except.ok.injEq .. ▸ h2
      exact stepOK_analyzeCreator outputs hInv
    | fusedConcat =>
      have h2 : Except.ok (analyzeCreator ty outputs s) = Except.ok s' := h
      obtain rfl : analyzeCreator ty outputs s = s' := Except.ok.injEq .. ▸ h2
      exact stepOK_analyzeCreator outputs hInv
    | mmTreeReduce =>
      have h2 : Except.ok (analyzeCreator ty outputs s) = Except.ok s' := h
      obtain rfl : analyzeCreator ty outputs s = s' := Except.ok.injEq .. ▸ h2
      exact stepOK_analyzeCreator outputs hInv
    | mmBatchSide =>
      have h2 : Except.ok (analyzeCreator ty outputs s) = Except.ok s' := h
      obtain rfl : analyzeCreator ty outputs s = s' := Except.ok.injEq .. ▸ h2
      exact stepOK_analyzeCreator outputs hInv
    | noneK =>
      have h2 : Except.ok (analyzeCreator ty outputs s) = Except.ok s' := h
      obtain rfl : analyzeCreator ty outputs s = s' := Except.ok.injEq .. ▸ h2
      exact stepOK_analyzeCreator outputs hInv
    | broadcastSizes =>
      have h2 : Except.ok (analyzeCreator ty outputs s) = Except.ok s' := h
      obtain rfl : analyzeCreator ty outputs s = s' := Except.ok.injEq .. ▸ h2
      exact stepOK_analyzeCreator outputs hInv
    | chunkSizes =>
      have h2 : Except.ok (analyzeCreator ty outputs s) = Except.ok s' := h
      obtain rfl : analyzeCreator ty outputs s = s' := Except.ok.injEq .. ▸ h2
      exact stepOK_analyzeCreator outputs hInv
    | functionK =>
      have h2 : Except.ok (analyzeCreator ty outputs s) = Except.ok s' := h
      obtain rfl : analyzeCreator ty outputs s = s' := Except.ok.injEq .. ▸ h2
      exact stepOK_analyzeCreator outputs hInv
    | tupleUnpack =>
      have h2 : Except.ok (analyzeExtractor outputs s) = Except.ok s' := h
      obtain rfl : analyzeExtractor outputs s = s' := Except.ok.injEq .. ▸ h2
      exact stepOK_analyzeExtractor outputs hInv
    | tupleIndex =>
      have h2 : Except.ok (analyzeExtractor outputs s) = Except.ok s' := h
      obtain rfl : analyzeExtractor outputs s = s' := Except.ok.injEq .. ▸ h2
      exact stepOK_analyzeExtractor outputs hInv
    | tupleSlice =>
      have h2 : Except.ok (analyzeExtractor outputs s) = Except.ok s' := h
      obtain rfl : analyzeExtractor outputs s = s' := Except.ok.injEq .. ▸ h2
      exact stepOK_analyzeExtractor outputs hInv
    | listUnpack =>
      have h2 : Except.ok (analyzeExtractor outputs s) = Except.ok s' := h
      obtain rfl : analyzeExtractor outputs s = s' := Except.ok.injEq .. ▸ h2
      exact stepOK_analyzeExtractor outputs hInv
    | pythonOp =>
      have h2 : Except.ok (analyzeExtractor outputs s) = Except.ok s' := h
      obtain rfl : analyzeExtractor outputs s = s' := Except.ok.injEq .. ▸ h2
      exact stepOK_analyzeExtractor outputs hInv
    | constantChunk => exact stepOK_analyzeChunk hInv h
    | broadcastingChunk => exact stepOK_analyzeBroadcastingChunk hInv h
    | atenAdd =>
      cases schema with
      | none =>
        have h2 : Except.ok (analyzeCreator ty outputs s) = Except.ok s' := h
        obtain rfl : analyzeCreator ty outputs s = s' := Except.ok.injEq .. ▸ h2
        exact stepOK_analyzeCreator outputs hInv
      | some sch => exact stepOK_analyzeSchemaPath hInv h
    | atenSub =>
      cases schema with
      | none =>
        have h2 : Except.ok (analyzeCreator ty outputs s) = Except.ok s' := h
        obtain rfl : analyzeCreator ty outputs s = s' := Except.ok.injEq .. ▸ h2
        exact stepOK_analyzeCreator outputs hInv
      | some sch => exact stepOK_analyzeSchemaPath hInv h
    | atenMul =>
      cases schema with
      | none =>
        have h2 : Except.ok (analyzeCreator ty outputs s) = Except.ok s' := h
        obtain rfl : analyzeCreator ty outputs s = s' := Except.ok.injEq .. ▸ h2
        exact stepOK_analyzeCreator outputs hInv
      | some sch => exact stepOK_analyzeSchemaPath hInv h
    | atenDiv =>
      cases schema with
      | none =>
        have h2 : Except.ok (analyzeCreator ty outputs s) = Except.ok s' := h
        obtain rfl : analyzeCreator ty outputs s = s' := Except.ok.injEq .. ▸ h2
        exact stepOK_analyzeCreator outputs hInv
      | some sch => exact stepOK_analyzeSchemaPath hInv h
    | other sym =>
      cases schema with
      | none =>
        have h2 : (Except.error AErr.assertFail : Except AErr ATState) = Except.ok s' := h
        exact absurd h2 (by simp)
      | some sch => exact stepOK_analyzeSchemaPath hInv h

end

/-! ## Edges survive later analysis -/

theorem contains_of_extends {s s' : ATState} (hExt : Extends s s') {v : Value}
    (h : contains s v = true) : contains s' v = true := by
  unfold contains at h ⊢
  cases hm : assocFind v s.map with
  | none => rw [hm] at h; simp at h
  | some i => rw [hExt.map_pres v i hm]; rfl

theorem isWildcard_false_of_extends {s s' : ATState} (hExt : Extends s s') {v : Value}
    (h : isWildcard s' v = false) : isWildcard s v = false := by
  unfold isWildcard at h ⊢
  rw [decide_eq_false_iff_not] at h ⊢
  exact fun hmem => h (hExt.wild_pres v hmem)

theorem pointsTo_true_mono {s s' : ATState} (hInv : Inv s) (hInv' : Inv s')
    (hExt : Extends s s') {a b : Value}
    (h : AliasTracker.pointsTo s a b = true) :
    AliasTracker.pointsTo s' a b = true := by
  rw [pointsTo_char hInv] at h
  rw [pointsTo_char hInv']
  obtain ⟨ea, hea, hcase⟩ := h
  refine ⟨ea, hExt.map_pres a ea hea, ?_⟩
  rcases hcase with h1 | h1 | ⟨eb, heb, hrtg⟩
  · left
    unfold isWildcard at h1 ⊢
    exact decide_eq_true (hExt.wild_pres a (of_decide_eq_true h1))
  · right
    left
    unfold isWildcard at h1 ⊢
    exact decide_eq_true (hExt.wild_pres b (of_decide_eq_true h1))
  · right
    right
    refine ⟨eb, hExt.map_pres b eb heb, ?_⟩
    refine Relation.ReflTransGen.mono ?_ hrtg
    intro x y hxy
    exact hExt.pt_pres x hxy

theorem contains_makeFreshValue_self (s : ATState) (v : Value) :
    contains (makeFreshValue s v) v = true := by
  by_cases hc : contains s v
  · unfold contains at hc ⊢
    cases hm : assocFind v s.map with
    | none => rw [hm] at hc; simp at hc
    | some i => rw [assocFind_makeFreshValue_of hm]; rfl
  · have hm : assocFind v s.map = none := by
      unfold contains at hc
      cases hm : assocFind v s.map with
      | none => rfl
      | some i => rw [hm] at hc; simp at hc
    unfold contains
    rw [show (makeFreshValue s v).map = s.map ++ [(v, s.elements.length)] from by
      simp [makeFreshValue, hc]]
    rw [assocFind_snoc, hm]
    simp

theorem makePointerTo_resolves {s : ATState} (hInv : Inv s) {v tgt : Value}
    (hne : v ≠ tgt) (hw : isWildcard s tgt = false) :
    ∃ vId toId, vId ≠ toId ∧
      assocFind v (makePointerTo s v tgt).map = some vId ∧
      assocFind tgt (makePointerTo s v tgt).map = some toId ∧
      toId ∈ (getEl (makePointerTo s v tgt) vId).pointsTo := by
  unfold makePointerTo
  rw [if_neg hne, if_neg (by simp [hw])]
  have h2 : Inv (ensureMapped (ensureMapped s tgt) v) :=
    inv_ensureMapped (inv_ensureMapped hInv tgt) v
  have hct1 : contains (ensureMapped s tgt) tgt = true := by
    unfold ensureMapped
    by_cases hc : contains s tgt
    · simpa [hc] using hc
    · simpa [hc] using contains_makeFreshValue_self s tgt
  have hcv2 : contains (ensureMapped (ensureMapped s tgt) v) v = true := by
    unfold ensureMapped
    by_cases hc : contains (if contains s tgt then s else makeFreshValue s tgt) v
    · simpa [hc] using hc
    · simpa [hc] using contains_makeFreshValue_self _ v
  have hct2 : contains (ensureMapped (ensureMapped s tgt) v) tgt = true :=
    contains_of_extends (extends_ensureMapped (ensureMapped s tgt) v) hct1
  set s2 := ensureMapped (ensureMapped s tgt) v with hs2
  cases hfv : assocFind v s2.map with
  | none => rw [contains, hfv] at hcv2; simp at hcv2
  | some vId =>
    cases hft : assocFind tgt s2.map with
    | none => rw [contains, hft] at hct2; simp at hct2
    | some toId =>
      have hneid : vId ≠ toId := by
        intro hEq
        exact hne (assocFind_inj h2.mapIdsNodup hfv (hEq ▸ hft))
      have hvlt : vId < s2.elements.length := (h2.mapValid v vId hfv).1
      refine ⟨vId, toId, hneid, ?_, ?_, ?_⟩
      · show assocFind v (addEdge s2 vId toId).map = some vId
        rw [addEdge_map]
        exact hfv
      · show assocFind tgt (addEdge s2 vId toId).map = some toId
        rw [addEdge_map]
        exact hft
      · show toId ∈ (getEl (addEdge s2 vId toId) vId).pointsTo
        rw [getEl_addEdge_src hneid hvlt]
        exact mem_linsert.mpr (Or.inl rfl)

theorem makePointerTo_pointsTo {s : ATState} (hInv : Inv s) {v tgt : Value}
    (hne : v ≠ tgt) (hw : isWildcard s tgt = false) :
    AliasTracker.pointsTo (makePointerTo s v tgt) v tgt = true := by
  obtain ⟨vId, toId, hneid, hfv, hft, hmem⟩ := makePointerTo_resolves hInv hne hw
  rw [pointsTo_char (inv_makePointerTo hInv v tgt)]
  exact ⟨vId, hfv, Or.inr (Or.inr ⟨toId, hft, Relation.ReflTransGen.single hmem⟩)⟩

theorem listAt_ok_iff {α : Type} {l : List α} {i : Nat} {x : α} :
    listAt l i = .ok x ↔ l.get? i = some x := by
  unfold listAt
  cases hg : l.get? i with
  | none => simp
  | some y => simp

instance {ε α : Type} [DecidableEq ε] [DecidableEq α] : DecidableEq (Except ε α) :=
  fun a b =>
    match a, b with
    | .ok x, .ok y =>
      if h : x = y then isTrue (by rw [h]) else isFalse (by simp [h])
    | .error e, .error f =>
      if h : e = f then isTrue (by rw [h]) else isFalse (by simp [h])
    | .ok _, .error _ => isFalse (by simp)
    | .error _, .ok _ => isFalse (by simp)

/-! ## Claim C4: If outputs alias both branch outputs -/

theorem analyzeIfOutputs_adds {ty : Value → JType} {tOuts fOuts : List Value} :
    ∀ (outs : List Value) (i : Nat) (s s' : ATState), Inv s →
      analyzeIfOutputs ty tOuts fOuts outs i s = .ok s' →
      ∀ j out tOut fOut, outs.get? j = some out →
        tOuts.get? (i + j) = some tOut → fOuts.get? (i + j) = some fOut →
        shouldAnnotate (ty out) = true → out ≠ tOut → out ≠ fOut →
        isWildcard s' tOut = false → isWildcard s' fOut = false →
        AliasTracker.pointsTo s' out tOut = true ∧
        AliasTracker.pointsTo s' out fOut = true := by
  intro outs
  induction outs with
  | nil =>
    intro i s s' hInv h j out tOut fOut hj
    simp at hj
  | cons o rest ih =>
    intro i s s' hInv h j out tOut fOut hj ht hf hann hne1 hne2 hw1 hw2
    unfold analyzeIfOutputs at h
    cases h1 : listAt tOuts i with
    | error e =>
      rw [h1, except_bind_error] at h
      exact absurd h (by simp)
    | ok trueOutput =>
      rw [h1, except_bind_ok] at h
      cases h2 : listAt fOuts i with
      | error e =>
        rw [h2, except_bind_error] at h
        exact absurd h (by simp)
      | ok falseOutput =>
        rw [h2, except_bind_ok] at h
        cases h3 : makeAliasOf ty s o trueOutput with
        | error e =>
          rw [h3, except_bind_error] at h
          exact absurd h (by simp)
        | ok s1 =>
          rw [h3, except_bind_ok] at h
          cases h4 : makeAliasOf ty s1 o falseOutput with
          | error e =>
            rw [h4, except_bind_error] at h
            exact absurd h (by simp)
          | ok s2 =>
            rw [h4, except_bind_ok] at h
            obtain ⟨hI1, hE1⟩ := stepOK_makeAliasOf hInv h3
            obtain ⟨hI2, hE2⟩ := stepOK_makeAliasOf hI1 h4
            obtain ⟨hI3, hE3⟩ := stepOK_analyzeIfOutputs rest (i + 1) s2 s' hI2 h
            cases j with
            | zero =>
              have ho : o = out := by simpa using hj
              have htO : trueOutput = tOut := by
                rw [listAt_ok_iff] at h1
                rw [Nat.add_zero, h1] at ht
                exact Option.some_inj.mp ht
              have hfO : falseOutput = fOut := by
                rw [listAt_ok_iff] at h2
                rw [Nat.add_zero, h2] at hf
                exact Option.some_inj.mp hf
              rw [ho, htO] at h3
              rw [ho, hfO] at h4
              have hwt : isWildcard s tOut = false :=
                isWildcard_false_of_extends
                  (Extends.trans hE1 (Extends.trans hE2 hE3)) hw1
              have hwf1 : isWildcard s1 fOut = false :=
                isWildcard_false_of_extends (Extends.trans hE2 hE3) hw2
              have hs1eq : s1 = makePointerTo s out tOut := by
                unfold makeAliasOf at h3
                rw [if_neg (fun hc => hc hann)] at h3
                exact (Except.ok.inj h3).symm
              have hs2eq : s2 = makePointerTo s1 out fOut := by
                unfold makeAliasOf at h4
                rw [if_neg (fun hc => hc hann)] at h4
                exact (Except.ok.inj h4).symm
              constructor
              · have hstep : AliasTracker.pointsTo s1 out tOut = true := by
                  rw [hs1eq]
                  exact makePointerTo_pointsTo hInv hne1 hwt
                exact pointsTo_true_mono hI1 hI3 (Extends.trans hE2 hE3) hstep
              · have hstep : AliasTracker.pointsTo s2 out fOut = true := by
                  rw [hs2eq]
                  exact makePointerTo_pointsTo hI1 hne2 hwf1
                exact pointsTo_true_mono hI2 hI3 hE3 hstep
            | succ j2 =>
              have hj2 : rest.get? j2 = some out := by simpa using hj
              have ht2 : tOuts.get? (i + 1 + j2) = some tOut := by
                rw [show i + 1 + j2 = i + (j2 + 1) from by omega]
                exact ht
              have hf2 : fOuts.get? (i + 1 + j2) = some fOut := by
                rw [show i + 1 + j2 = i + (j2 + 1) from by omega]
                exact hf
              exact ih (i + 1) s2 s' hI2 h j2 out tOut fOut hj2 ht2 hf2
                hann hne1 hne2 hw1 hw2

/-- **C4.**  For every If node, analysis visits the true block then the
false block, and for each output position `i` adds a pointer edge from
the node's `i`-th output to both branch block outputs, so the node output
may-aliases both (stated for annotatable outputs and non-wildcard,
distinct branch outputs — exactly the values the points-to graph
tracks). -/
theorem C4_if_branch_union {ty : Value → JType} {outputs : List Value}
    {tb fb : GBlock} {restb : GBlockList} {s s' : ATState}
    (hInv : Inv s)
    (h : analyzeIf ty outputs (.cons tb (.cons fb restb)) s = .ok s') :
    (∃ s1 s2, analyzeBlock ty tb s = .ok s1 ∧ analyzeBlock ty fb s1 = .ok s2 ∧
      analyzeIfOutputs ty tb.boutputs fb.boutputs outputs 0 s2 = .ok s') ∧
    (∀ i out tOut fOut, outputs.get? i = some out →
      tb.boutputs.get? i = some tOut → fb.boutputs.get? i = some fOut →
      shouldAnnotate (ty out) = true → out ≠ tOut → out ≠ fOut →
      isWildcard s' tOut = false → isWildcard s' fOut = false →
      AliasTracker.pointsTo s' out tOut = true ∧
      AliasTracker.pointsTo s' out fOut = true) := by
  unfold analyzeIf at h
  cases h1 : analyzeBlock ty tb s with
  | error e =>
    rw [h1] at h
    exact absurd h (by simp)
  | ok s1 =>
    rw [h1] at h
    simp only at h
    cases h2 : analyzeBlock ty fb s1 with
    | error e =>
      rw [h2] at h
      exact absurd h (by simp)
    | ok s2 =>
      rw [h2] at h
      simp only at h
      obtain ⟨hI1, _⟩ := stepOK_analyzeBlock ty tb s s1 hInv h1
      obtain ⟨hI2, _⟩ := stepOK_analyzeBlock ty fb s1 s2 hI1 h2
      refine ⟨⟨s1, s2, rfl, h2, h⟩, ?_⟩
      intro i out tOut fOut hi hti hfi hann hne1 hne2 hw1 hw2
      have hti0 : tb.boutputs.get? (0 + i) = some tOut := by simpa using hti
      have hfi0 : fb.boutputs.get? (0 + i) = some fOut := by simpa using hfi
      exact analyzeIfOutputs_adds outputs 0 s2 s' hI2 h i out tOut fOut hi hti0 hfi0
        hann hne1 hne2 hw1 hw2

/-- The concrete If node for the C4 witness: tensor-typed output 10, true
branch output 11, false branch output 12, empty branch blocks. -/
def c4TrueBlock : GBlock := .mk [] .nil [11]

/-- The false branch of the C4 witness. -/
def c4FalseBlock : GBlock := .mk [] .nil [12]

/-- The state after analyzing the witness If node. -/
def c4Result : ATState :=
  ((analyzeIf (fun _ => JType.tensor) [10]
    (.cons c4TrueBlock (.cons c4FalseBlock .nil)) emptyState).toOption).getD emptyState

/-- Witness for `C4_if_branch_union` on a concrete If node. -/
theorem C4_if_branch_union_witness :
    (∃ s1 s2, analyzeBlock (fun _ => JType.tensor) c4TrueBlock emptyState = .ok s1 ∧
      analyzeBlock (fun _ => JType.tensor) c4FalseBlock s1 = .ok s2 ∧
      analyzeIfOutputs (fun _ => JType.tensor) c4TrueBlock.boutputs c4FalseBlock.boutputs
        [10] 0 s2 = .ok c4Result) ∧
    (∀ i out tOut fOut, [10].get? i = some out →
      c4TrueBlock.boutputs.get? i = some tOut → c4FalseBlock.boutputs.get? i = some fOut →
      shouldAnnotate ((fun _ => JType.tensor) out) = true → out ≠ tOut → out ≠ fOut →
      isWildcard c4Result tOut = false → isWildcard c4Result fOut = false →
      AliasTracker.pointsTo c4Result out tOut = true ∧
      AliasTracker.pointsTo c4Result out fOut = true) :=
  @C4_if_branch_union (fun _ => JType.tensor) [10] c4TrueBlock c4FalseBlock .nil
    emptyState c4Result inv_empty (by decide)

/-! ## Claim C7: Loop analysis is a single pass over the body -/

theorem zip_mem_of_get {α β : Type} :
    ∀ (l1 : List α) (l2 : List β) (i : Nat) (a : α) (b : β),
      l1.get? i = some a → l2.get? i = some b → (a, b) ∈ l1.zip l2
  | [], _, i, a, b, h1, _ => by simp at h1
  | _ :: _, [], i, a, b, _, h2 => by simp at h2
  | x :: xs, y :: ys, 0, a, b, h1, h2 => by
    have hx : x = a := by simpa using h1
    have hy : y = b := by simpa using h2
    rw [List.zip_cons_cons, hx, hy]
    exact List.mem_cons_self _ _
  | x :: xs, y :: ys, i + 1, a, b, h1, h2 => by
    simp only [List.get?_cons_succ] at h1 h2
    rw [List.zip_cons_cons]
    exact List.mem_cons_of_mem _ (zip_mem_of_get xs ys i a b h1 h2)

theorem foldlM_makeAliasOf_adds {ty : Value → JType} :
    ∀ (l : List (Value × Value)) (s s' : ATState), Inv s →
      l.foldlM (fun st p => makeAliasOf ty st p.1 p.2) s = .ok s' →
      ∀ p, p ∈ l → shouldAnnotate (ty p.1) = true → p.1 ≠ p.2 →
        isWildcard s' p.2 = false →
        AliasTracker.pointsTo s' p.1 p.2 = true := by
  intro l
  induction l with
  | nil =>
    intro s s' hInv h p hp
    simp at hp
  | cons x rest ih =>
    intro s s' hInv h p hp hann hne hw
    simp only [List.foldlM_cons] at h
    cases hx : makeAliasOf ty s x.1 x.2 with
    | error e =>
      rw [hx] at h
      simp only [Bind.bind, Except.bind] at h
      exact absurd h (by simp)
    | ok s1 =>
      rw [hx] at h
      simp only [Bind.bind, Except.bind] at h
      obtain ⟨hI1, hE1⟩ := stepOK_makeAliasOf hInv hx
      obtain ⟨hI2, hE2⟩ :=
        stepOK_foldlM (fun s q s' hI hq => stepOK_makeAliasOf hI hq) rest s1 s' hI1 h
      rcases List.mem_cons.mp hp with hpx | hpr
      · subst hpx
        have hw1 : isWildcard s1 p.2 = false := isWildcard_false_of_extends hE2 hw
        have hwS : isWildcard s p.2 = false := isWildcard_false_of_extends hE1 hw1
        have hstep : AliasTracker.pointsTo s1 p.1 p.2 = true := by
          unfold makeAliasOf at hx
          rw [if_neg (fun hc => hc hann)] at hx
          rw [← Except.ok.inj hx]
          exact makePointerTo_pointsTo hInv hne hwS
        exact pointsTo_true_mono hI1 hI2 hE2 hstep
      · exact ih s1 s' hI1 h p hpr hann hne hw

theorem mapAliases_adds {ty : Value → JType} {fr tos : List Value} {s s' : ATState}
    (hInv : Inv s) (h : mapAliases ty fr tos s = .ok s')
    {j : Nat} {a b : Value} (ha : fr.get? j = some a) (hb : tos.get? j = some b)
    (hann : shouldAnnotate (ty a) = true) (hne : a ≠ b)
    (hw : isWildcard s' b = false) :
    AliasTracker.pointsTo s' a b = true := by
  unfold mapAliases at h
  by_cases hlen : tos.length = fr.length
  · rw [if_pos hlen] at h
    exact foldlM_makeAliasOf_adds (List.zip fr tos) s s' hInv h (a, b)
      (zip_mem_of_get fr tos j a b ha hb) hann hne hw
  · rw [if_neg hlen] at h
    exact absurd h (by simp)

/-- **C7.**  For every Loop node, analysis maps the loop-carried node
inputs (inputs after max-trip and condition) onto the body block's inputs
(after the trip count), analyzes the body block exactly once — the
successful run decomposes into one `analyzeBlock` call between the two
`mapAliases` calls — and then maps the body block's outputs (after the
condition) back onto the node's outputs; each mapped pair gets a pointer
edge witnessed by `pointsTo` (for annotatable, distinct, non-wildcard
pairs — the values the points-to graph tracks). -/
theorem C7_loop_single_pass {ty : Value → JType} {inputs outputs : List Value}
    {bodyBlock : GBlock} {restb : GBlockList} {s s' : ATState}
    (hInv : Inv s)
    (h : analyzeLoop ty inputs outputs (.cons bodyBlock restb) s = .ok s') :
    (∃ s1 s2,
      mapAliases ty (bodyBlock.binputs.drop 1) (inputs.drop 2) s = .ok s1 ∧
      analyzeBlock ty bodyBlock s1 = .ok s2 ∧
      mapAliases ty outputs (bodyBlock.boutputs.drop 1) s2 = .ok s') ∧
    (∀ j bi li, (bodyBlock.binputs.drop 1).get? j = some bi →
      (inputs.drop 2).get? j = some li →
      shouldAnnotate (ty bi) = true → bi ≠ li → isWildcard s' li = false →
      AliasTracker.pointsTo s' bi li = true) ∧
    (∀ j out bo, outputs.get? j = some out →
      (bodyBlock.boutputs.drop 1).get? j = some bo →
      shouldAnnotate (ty out) = true → out ≠ bo → isWildcard s' bo = false →
      AliasTracker.pointsTo s' out bo = true) := by
  unfold analyzeLoop at h
  by_cases hl1 : (bodyBlock.binputs.drop 1).length = (inputs.drop 2).length
  · rw [if_pos hl1] at h
    by_cases hl2 : (bodyBlock.boutputs.drop 1).length = outputs.length
    · rw [if_pos hl2] at h
      cases h1 : mapAliases ty (bodyBlock.binputs.drop 1) (inputs.drop 2) s with
      | error e =>
        rw [h1] at h
        exact absurd h (by simp)
      | ok s1 =>
        rw [h1] at h
        simp only at h
        cases h2 : analyzeBlock ty bodyBlock s1 with
        | error e =>
          rw [h2] at h
          exact absurd h (by simp)
        | ok s2 =>
          rw [h2] at h
          simp only at h
          obtain ⟨hI1, hE1⟩ := stepOK_mapAliases hInv h1
          obtain ⟨hI2, hE2⟩ := stepOK_analyzeBlock ty bodyBlock s1 s2 hI1 h2
          obtain ⟨hI3, hE3⟩ := stepOK_mapAliases hI2 h
          refine ⟨⟨s1, s2, rfl, h2, h⟩, ?_, ?_⟩
          · intro j bi li hbi hli hann hne hw
            have hw1 : isWildcard s1 li = false :=
              isWildcard_false_of_extends (Extends.trans hE2 hE3) hw
            have hstep : AliasTracker.pointsTo s1 bi li = true :=
              mapAliases_adds hInv h1 hbi hli hann hne hw1
            exact pointsTo_true_mono hI1 hI3 (Extends.trans hE2 hE3) hstep
          · intro j out bo hout hbo hann hne hw
            exact mapAliases_adds hI2 h hout hbo hann hne hw
    · rw [if_neg hl2] at h
      exact absurd h (by simp)
  · rw [if_neg hl1] at h
    exact absurd h (by simp)

/-- The body block of the C7 witness loop: trip-count input 4, one
loop-carried input 5, condition output 6, one carried output 7. -/
def c7Body : GBlock := .mk [4, 5] .nil [6, 7]

/-- The state after analyzing the witness Loop node (inputs: max trip 1,
condition 2, carried value 3; output 8). -/
def c7Result : ATState :=
  ((analyzeLoop (fun _ => JType.tensor) [1, 2, 3] [8]
    (.cons c7Body .nil) emptyState).toOption).getD emptyState

/-- Witness for `C7_loop_single_pass` on a concrete Loop node. -/
theorem C7_loop_single_pass_witness :
    (∃ s1 s2,
      mapAliases (fun _ => JType.tensor) (c7Body.binputs.drop 1) ([1, 2, 3].drop 2)
        emptyState = .ok s1 ∧
      analyzeBlock (fun _ => JType.tensor) c7Body s1 = .ok s2 ∧
      mapAliases (fun _ => JType.tensor) [8] (c7Body.boutputs.drop 1) s2 = .ok c7Result) ∧
    (∀ j bi li, (c7Body.binputs.drop 1).get? j = some bi →
      ([1, 2, 3].drop 2).get? j = some li →
      shouldAnnotate ((fun _ => JType.tensor) bi) = true → bi ≠ li →
      isWildcard c7Result li = false →
      AliasTracker.pointsTo c7Result bi li = true) ∧
    (∀ j out bo, [8].get? j = some out →
      (c7Body.boutputs.drop 1).get? j = some bo →
      shouldAnnotate ((fun _ => JType.tensor) out) = true → out ≠ bo →
      isWildcard c7Result bo = false →
      AliasTracker.pointsTo c7Result out bo = true) :=
  @C7_loop_single_pass (fun _ => JType.tensor) [1, 2, 3] [8] c7Body .nil
    emptyState c7Result inv_empty (by decide)

/-! ## Claim C2: the seed phase partitions inputs; it makes no wildcards -/

theorem contains_ensureMapped_self (s : ATState) (v : Value) :
    contains (ensureMapped s v) v = true := by
  unfold ensureMapped
  by_cases hc : contains s v
  · simpa [hc] using hc
  · simpa [hc] using contains_makeFreshValue_self s v

theorem ensureMapped_wildcards (s : ATState) (v : Value) :
    (ensureMapped s v).wildcards = s.wildcards := by
  unfold ensureMapped
  by_cases hc : contains s v
  · rw [if_pos hc]
  · rw [if_neg hc]
    exact makeFreshValue_wildcards s v

theorem makePointerTo_wildcards {s : ATState} {tgt : Value}
    (hw : isWildcard s tgt = false) (v : Value) :
    (makePointerTo s v tgt).wildcards = s.wildcards := by
  unfold makePointerTo
  by_cases h1 : v = tgt
  · rw [if_pos h1]
  · rw [if_neg h1, if_neg (by simp [hw])]
    split
    · rw [addEdge_wildcards, ensureMapped_wildcards, ensureMapped_wildcards]
    · rw [ensureMapped_wildcards, ensureMapped_wildcards]

theorem contains_makePointerTo_self {s : ATState} {tgt : Value}
    (hc0 : contains s tgt = true) (hw : isWildcard s tgt = false) (v : Value) :
    contains (makePointerTo s v tgt) v = true := by
  by_cases hne : v = tgt
  · rw [hne]
    unfold makePointerTo
    rw [if_pos rfl]
    exact hc0
  · unfold makePointerTo
    rw [if_neg hne, if_neg (by simp [hw])]
    have hcv2 : contains (ensureMapped (ensureMapped s tgt) v) v = true :=
      contains_ensureMapped_self _ v
    set s2 := ensureMapped (ensureMapped s tgt) v with hs2
    cases hfv : assocFind v s2.map with
    | none => rw [contains, hfv] at hcv2; simp at hcv2
    | some vId =>
      cases hft : assocFind tgt s2.map with
      | none => exact hcv2
      | some toId =>
        show contains (addEdge s2 vId toId) v = true
        unfold contains
        rw [addEdge_map]
        rw [contains] at hcv2
        exact hcv2

theorem extends_foldl_makePointerTo (v0 : Value) :
    ∀ (l : List Value) (st : ATState),
      Extends st (l.foldl (fun acc u => makePointerTo acc u v0) st) := by
  intro l
  induction l with
  | nil => intro st; exact Extends.rfl st
  | cons x rest ih =>
    intro st
    rw [List.foldl_cons]
    exact Extends.trans (extends_makePointerTo st x v0) (ih _)

theorem foldl_makePointerTo_wildcards {v0 : Value} :
    ∀ (l : List Value) (st : ATState), st.wildcards = [] →
      (l.foldl (fun acc u => makePointerTo acc u v0) st).wildcards = [] := by
  intro l
  induction l with
  | nil => intro st h; exact h
  | cons x rest ih =>
    intro st h
    rw [List.foldl_cons]
    apply ih
    have hw : isWildcard st v0 = false := by
      unfold isWildcard
      rw [h]
      simp
    rw [makePointerTo_wildcards hw]
    exact h

theorem foldl_makePointerTo_contains {v0 : Value} :
    ∀ (l : List Value) (st : ATState), st.wildcards = [] → contains st v0 = true →
      ∀ v ∈ l, contains (l.foldl (fun acc u => makePointerTo acc u v0) st) v = true := by
  intro l
  induction l with
  | nil =>
    intro st hwl hc0 v hv
    simp at hv
  | cons x rest ih =>
    intro st hwl hc0 v hv
    rw [List.foldl_cons]
    have hw0 : isWildcard st v0 = false := by
      unfold isWildcard
      rw [hwl]
      simp
    have hwl1 : (makePointerTo st x v0).wildcards = [] := by
      rw [makePointerTo_wildcards hw0]
      exact hwl
    have hc1 : contains (makePointerTo st x v0) v0 = true :=
      contains_of_extends (extends_makePointerTo st x v0) hc0
    rcases List.mem_cons.mp hv with hvx | hvr
    · rw [hvx]
      have hcX : contains (makePointerTo st x v0) x = true :=
        contains_makePointerTo_self hc0 hw0 x
      exact contains_of_extends (extends_foldl_makePointerTo v0 rest _) hcX
    · exact ih _ hwl1 hc1 v hvr

theorem makeAllAlias_wildcards {s : ATState} (h : s.wildcards = []) :
    ∀ (values : List Value), (makeAllAlias values s).wildcards = []
  | [] => h
  | v0 :: rest => by
    show ((v0 :: rest).foldl (fun acc u => makePointerTo acc u v0)
      (makeFreshValue s v0)).wildcards = []
    apply foldl_makePointerTo_wildcards
    rw [makeFreshValue_wildcards]
    exact h

theorem extends_makeAllAlias (st : ATState) :
    ∀ (values : List Value), Extends st (makeAllAlias values st)
  | [] => Extends.rfl st
  | v0 :: rest =>
    Extends.trans (extends_makeFreshValue st v0)
      (extends_foldl_makePointerTo v0 (v0 :: rest) (makeFreshValue st v0))

theorem contains_makeAllAlias {st : ATState} (hwl : st.wildcards = []) :
    ∀ (values : List Value) (v : Value), v ∈ values →
      contains (makeAllAlias values st) v = true
  | [], v, hv => by simp at hv
  | v0 :: rest, v, hv => by
    show contains ((v0 :: rest).foldl (fun acc u => makePointerTo acc u v0)
      (makeFreshValue st v0)) v = true
    refine foldl_makePointerTo_contains (v0 :: rest) (makeFreshValue st v0) ?_ ?_ v hv
    · rw [makeFreshValue_wildcards]
      exact hwl
    · exact contains_makeFreshValue_self st v0

theorem extends_foldl_makeAllAlias (f : Nat → List Value) :
    ∀ (ks : List Nat) (st : ATState),
      Extends st (ks.foldl (fun acc q => makeAllAlias (f q) acc) st) := by
  intro ks
  induction ks with
  | nil => intro st; exact Extends.rfl st
  | cons q rest ih =>
    intro st
    rw [List.foldl_cons]
    exact Extends.trans (extends_makeAllAlias st (f q)) (ih _)

theorem foldl_makeAllAlias_wildcards (f : Nat → List Value) :
    ∀ (ks : List Nat) (st : ATState), st.wildcards = [] →
      (ks.foldl (fun acc q => makeAllAlias (f q) acc) st).wildcards = [] := by
  intro ks
  induction ks with
  | nil => intro st h; exact h
  | cons q rest ih =>
    intro st h
    rw [List.foldl_cons]
    exact ih _ (makeAllAlias_wildcards h (f q))

theorem foldl_makeAllAlias_contains (f : Nat → List Value) :
    ∀ (ks : List Nat) (st : ATState), st.wildcards = [] →
      ∀ k ∈ ks, ∀ v ∈ f k,
        contains (ks.foldl (fun acc q => makeAllAlias (f q) acc) st) v = true := by
  intro ks
  induction ks with
  | nil =>
    intro st hwl k hk
    simp at hk
  | cons q rest ih =>
    intro st hwl k hk v hv
    rw [List.foldl_cons]
    rcases List.mem_cons.mp hk with hkq | hkr
    · have hc : contains (makeAllAlias (f q) st) v = true :=
        contains_makeAllAlias hwl (f q) v (hkq ▸ hv)
      exact contains_of_extends (extends_foldl_makeAllAlias f rest _) hc
    · exact ih _ (makeAllAlias_wildcards hwl (f q)) k hkr v hv

theorem seedInputs_wildcards {g : JGraph} {s0 : ATState}
    (h : seedInputs g = .ok s0) : s0.wildcards = [] := by
  unfold seedInputs at h
  cases hc : checkInputsPartitionable g with
  | error e =>
    rw [hc, except_bind_error] at h
    exact absurd h (by simp)
  | ok u =>
    rw [hc, except_bind_ok] at h
    have hfold := Except.ok.inj h
    rw [← hfold]
    exact foldl_makeAllAlias_wildcards _ (seedPartitions g) emptyState rfl

/-- A one-input all-tensor graph with an empty body: the smallest graph on
which the seed phase runs. -/
def c2Graph : JGraph := ⟨fun _ => JType.tensor, [1], ⟨[], .nil, []⟩⟩

/-- The seed state of `c2Graph`. -/
def c2Seed : ATState := ((seedInputs c2Graph).toOption).getD emptyState

/-- **C2 (counterexample).**  On a graph whose single input is a tensor,
the whole construction-time analysis succeeds with the input tracked in
the map but NOT registered as a wildcard: the wildcard set stays empty, so
mutable graph inputs are not wildcards before (or after) the first node is
analyzed. -/
theorem C2_counterexample :
    shouldAnnotate (c2Graph.ty 1) = true ∧
    ∃ s', analyzeGraph c2Graph = .ok s' ∧ contains s' 1 = true ∧
      isWildcard s' 1 = false ∧ s'.wildcards = [] :=
  ⟨rfl, ((analyzeGraph c2Graph).toOption).getD emptyState,
    by decide, by decide, by decide, by decide⟩

/-- **C2 (amended).**  `AliasDb::analyze(Graph)` seeds the graph inputs by
partitioning them by type and making each partition alias each other via
`makeAllAlias`; it registers no wildcards.  If the seed phase succeeds,
then before the first node is analyzed the wildcard set is empty, every
annotatable input is tracked in the map, and no input is a wildcard; the
rest of construction is exactly analyzing the top block from that seed
state. -/
theorem C2_input_seeding {g : JGraph} {s0 : ATState}
    (h : seedInputs g = .ok s0) :
    analyzeGraph g = analyzeBlock g.ty g.top s0 ∧
    s0.wildcards = [] ∧
    ∀ v ∈ g.ginputs, shouldAnnotate (g.ty v) = true →
      contains s0 v = true ∧ isWildcard s0 v = false := by
  have hwl : s0.wildcards = [] := seedInputs_wildcards h
  refine ⟨?_, hwl, ?_⟩
  · unfold analyzeGraph
    rw [h, except_bind_ok]
  · intro v hv hann
    refine ⟨?_, by unfold isWildcard; rw [hwl]; simp⟩
    unfold seedInputs at h
    cases hc : checkInputsPartitionable g with
    | error e =>
      rw [hc, except_bind_error] at h
      exact absurd h (by simp)
    | ok u =>
      rw [hc, except_bind_ok] at h
      have hfold := Except.ok.inj h
      have hsome : (partitionKey (g.ty v)).isSome = true := by
        unfold checkInputsPartitionable at hc
        by_cases hall : g.ginputs.all
            (fun u => ((partitionKey (g.ty u)).isSome || !shouldAnnotate (g.ty u))) = true
        · have hvp := List.all_eq_true.mp hall v hv
          simp only [hann, Bool.not_true, Bool.or_false] at hvp
          exact hvp
        · rw [if_neg hall] at hc
          exact absurd hc (by simp)
      obtain ⟨k, hk⟩ := Option.isSome_iff_exists.mp hsome
      have hkmem : k ∈ seedPartitions g := by
        unfold seedPartitions
        rw [List.mem_dedup]
        exact List.mem_filterMap.mpr ⟨v, hv, hk⟩
      have hvpart : v ∈ g.ginputs.filter (fun u => partitionKey (g.ty u) = some k) := by
        rw [List.mem_filter]
        exact ⟨hv, by simp [hk]⟩
      rw [← hfold]
      exact foldl_makeAllAlias_contains _ (seedPartitions g) emptyState rfl k hkmem v hvpart

/-- Witness for `C2_input_seeding` on the concrete graph `c2Graph`. -/
theorem C2_input_seeding_witness :
    analyzeGraph c2Graph = analyzeBlock c2Graph.ty c2Graph.top c2Seed ∧
    c2Seed.wildcards = [] ∧
    ∀ v ∈ c2Graph.ginputs, shouldAnnotate (c2Graph.ty v) = true →
      contains c2Seed v = true ∧ isWildcard c2Seed v = false :=
  C2_input_seeding (by decide)

/-! ## Claim C6: the vararg/varret schema validation -/

theorem bindFormals_unannotated {ty : Value → JType} {nid : NodeId}
    {inputs : List Value} :
    ∀ (args : List SchemaArg) (i : Nat) (f2a : List (Symbol × Value)) (s : ATState),
      (∀ a ∈ args, a.aliasInfo = none) → i + args.length ≤ inputs.length →
      bindFormals ty nid inputs args i f2a s = .ok (f2a, s) := by
  intro args
  induction args with
  | nil =>
    intro i f2a s _ _
    rfl
  | cons a rest ih =>
    intro i f2a s hnone hlen
    have ha : a.aliasInfo = none := hnone a (List.mem_cons_self a rest)
    have hi : i < inputs.length := by
      simp only [List.length_cons] at hlen
      omega
    have hv : listAt inputs i = .ok (inputs.get ⟨i, hi⟩) := by
      rw [listAt_ok_iff]
      exact List.get?_eq_some.mpr ⟨hi, rfl⟩
    unfold bindFormals
    rw [hv, except_bind_ok, ha]
    refine ih (i + 1) f2a s (fun b hb => hnone b (List.mem_cons_of_mem _ hb)) ?_
    simp only [List.length_cons] at hlen
    omega

theorem bindReturns_unannotated {ty : Value → JType} {nid : NodeId}
    {outputs : List Value} {f2a : List (Symbol × Value)} :
    ∀ (rets : List SchemaArg) (i : Nat) (s : ATState),
      (∀ r ∈ rets, r.aliasInfo = none) → i + rets.length ≤ outputs.length →
      ∃ s', bindReturns ty nid outputs f2a rets i s = .ok s' := by
  intro rets
  induction rets with
  | nil =>
    intro i s _ _
    exact ⟨s, rfl⟩
  | cons r rest ih =>
    intro i s hnone hlen
    have hr : r.aliasInfo = none := hnone r (List.mem_cons_self r rest)
    have hi : i < outputs.length := by
      simp only [List.length_cons] at hlen
      omega
    have hv : listAt outputs i = .ok (outputs.get ⟨i, hi⟩) := by
      rw [listAt_ok_iff]
      exact List.get?_eq_some.mpr ⟨hi, rfl⟩
    obtain ⟨s', hs'⟩ := ih (i + 1) (giveFreshAlias ty s (outputs.get ⟨i, hi⟩))
      (fun b hb => hnone b (List.mem_cons_of_mem _ hb))
      (by simp only [List.length_cons] at hlen; omega)
    refine ⟨s', ?_⟩
    unfold bindReturns
    rw [hv, except_bind_ok, hr]
    exact hs'

/-- **C6.**  For a node analyzed through the schema-driven path whose
schema declares variadic inputs or variadic outputs and carries no alias
annotation on any argument or return: if some output has an annotatable
(mutable) type, analysis raises the fatal diagnostic `.report` carrying
the node's source location; if no output is annotatable (and the node has
enough inputs/outputs for its formals, as real graphs do), analysis
succeeds. -/
theorem C6_vararg_validation {ty : Value → JType} {sym : Symbol} {nid : NodeId}
    {inputs outputs : List Value} {blocks : GBlockList} {sch : FunctionSchema}
    {sg : Option GBlock} {ck loc : Nat} {s : ATState}
    (hva : sch.isVararg = true ∨ sch.isVarret = true)
    (hargs : ∀ a ∈ sch.arguments, a.aliasInfo = none)
    (hrets : ∀ r ∈ sch.returns, r.aliasInfo = none)
    (hlenIn : sch.arguments.length ≤ inputs.length)
    (hlenOut : sch.returns.length ≤ outputs.length) :
    (outputs.any (fun o => shouldAnnotate (ty o)) = true →
      analyzeImpl ty (.mk (.other sym) nid inputs outputs blocks (some sch) sg ck loc) s
        = .error (.report loc)) ∧
    (outputs.any (fun o => shouldAnnotate (ty o)) = false →
      ∃ s', analyzeImpl ty (.mk (.other sym) nid inputs outputs blocks (some sch) sg ck loc) s
        = .ok s') := by
  have hor : (sch.isVararg || sch.isVarret) = true := by
    rcases hva with h | h <;> simp [h]
  constructor
  · intro hany
    have hvc : varargCheck ty sch outputs loc = .error (.report loc) := by
      unfold varargCheck
      rw [if_pos hor]
      simp only [hany, if_true]
    show analyzeSchemaPath ty nid inputs outputs loc sch s = .error (.report loc)
    unfold analyzeSchemaPath
    rw [hvc, except_bind_error]
  · intro hany
    have hvc : varargCheck ty sch outputs loc = .ok () := by
      unfold varargCheck
      rw [if_pos hor]
      simp [hany]
    have hbf : bindFormals ty nid inputs sch.arguments 0 [] s = .ok ([], s) :=
      bindFormals_unannotated sch.arguments 0 [] s hargs (by omega)
    obtain ⟨s', hs'⟩ :=
      @bindReturns_unannotated ty nid outputs [] sch.returns 0 s hrets (by omega)
    refine ⟨s', ?_⟩
    show analyzeSchemaPath ty nid inputs outputs loc sch s = .ok s'
    unfold analyzeSchemaPath
    rw [hvc, except_bind_ok, hbf, except_bind_ok]
    exact hs'

/-- The vararg, annotation-free schema of the C6 witness: one unannotated
argument, one unannotated return. -/
def c6Schema : FunctionSchema := ⟨[⟨none⟩], [⟨none⟩], true, false⟩

/-- Witness for `C6_vararg_validation`: a vararg node with a tensor
output, whose analysis reports at source location 42. -/
theorem C6_vararg_validation_witness :
    ([5].any (fun o => shouldAnnotate ((fun _ => JType.tensor) o)) = true →
      analyzeImpl (fun _ => JType.tensor)
        (.mk (.other 99) 7 [1] [5] .nil (some c6Schema) none 0 42) emptyState
        = .error (.report 42)) ∧
    ([5].any (fun o => shouldAnnotate ((fun _ => JType.tensor) o)) = false →
      ∃ s', analyzeImpl (fun _ => JType.tensor)
        (.mk (.other 99) 7 [1] [5] .nil (some c6Schema) none 0 42) emptyState
        = .ok s') :=
  C6_vararg_validation (Or.inl (by decide)) (by decide) (by decide)
    (by decide) (by decide)

/-! ## The topological node mover (`AliasDb::tryMove` and `WorkingSet`) -/

theorem option_bind_some {α β : Type} (a : α) (f : α → Option β) :
    (some a >>= f) = f a := rfl

theorem option_bind_none {α β : Type} (f : α → Option β) :
    ((none : Option α) >>= f) = none := rfl

mutual

/-- Does `v` occur as an input of this node or of any node nested in its
blocks (a nested use lifts to the enclosing node, as `findSameBlock`
does)?  Block outputs count as uses by the block's return. -/
def GNode.usesValue : GNode → Value → Bool
  | .mk _ _ ins _ blocks _ _ _ _, v => decide (v ∈ ins) || GBlockList.usesValue blocks v

/-- Does `v` occur in this block: among its outputs or used by a node. -/
def GBlock.usesValue : GBlock → Value → Bool
  | .mk _ nodes bouts, v => decide (v ∈ bouts) || GNodeList.usesValue nodes v

/-- Any node of the list using `v`. -/
def GNodeList.usesValue : GNodeList → Value → Bool
  | .nil, _ => false
  | .cons n rest, v => GNode.usesValue n v || GNodeList.usesValue rest v

/-- Any block of the list using `v`. -/
def GBlockList.usesValue : GBlockList → Value → Bool
  | .nil, _ => false
  | .cons b rest, v => GBlock.usesValue b v || GBlockList.usesValue rest v

end

mutual

/-- Is the node with id `w` this node or nested inside it (the blockchain
ascent of `findSameBlock`)? -/
def GNode.containsId : GNode → NodeId → Bool
  | .mk _ i _ _ blocks _ _ _ _, w => decide (i = w) || GBlockList.containsId blocks w

/-- Is the node with id `w` inside this block? -/
def GBlock.containsId : GBlock → NodeId → Bool
  | .mk _ nodes _, w => GNodeList.containsId nodes w

/-- Is the node with id `w` inside one of these nodes? -/
def GNodeList.containsId : GNodeList → NodeId → Bool
  | .nil, _ => false
  | .cons n rest, w => GNode.containsId n w || GNodeList.containsId rest w

/-- Is the node with id `w` inside one of these blocks? -/
def GBlockList.containsId : GBlockList → NodeId → Bool
  | .nil, _ => false
  | .cons b rest, w => GBlock.containsId b w || GBlockList.containsId rest w

end

/-- `AliasDb::hasWildcard`: some input or output of the node is a
wildcard. -/
def hasWildcardN (s : ATState) (n : GNode) : Bool :=
  n.inputs.any (fun v => isWildcard s v) || n.outputs.any (fun v => isWildcard s v)

/-- `AliasDb::writesTo`: primitive-typed values cannot be written. -/
def writesToN (ty : Value → JType) (s : ATState) (n : GNode) (v : Value) : Bool :=
  if ¬shouldAnnotate (ty v) then false else AliasTracker.writesTo s n.nid v

/-- `AliasDb::hasWrites`: the node writes to one of its inputs or
outputs. -/
def hasWritesN (ty : Value → JType) (s : ATState) (n : GNode) : Bool :=
  n.inputs.any (writesToN ty s n) || n.outputs.any (writesToN ty s n)

/-- `AliasDb::getWriters`: the union over the node's inputs and outputs of
`AliasTracker::getWrites` (which goes through the cache, so may throw). -/
def getWritersN (s : ATState) (n : GNode) : Option (List NodeId) :=
  (n.inputs ++ n.outputs).foldlM (fun acc v => do
    let w ← AliasTracker.getWrites s v
    pure (acc ++ w)) []

/-- The ambient context of a move: the typing, the analysis result, and
the block's nodes in order (moves only reorder within one block). -/
structure MoverCtx where
  mty : Value → JType
  mst : ATState
  arena : List GNode

/-- `WorkingSet::getUsersSameBlock`: the block-level nodes that use some
output of `n`, possibly inside a sub-block. -/
def getUsersSameBlock (c : MoverCtx) (n : GNode) : List GNode :=
  c.arena.filter (fun m => n.outputs.any (fun v => GNode.usesValue m v))

/-- `WorkingSet::getWritersSameBlock`: the block-level nodes containing a
writer of `n` (through `AliasDb::getWriters`). -/
def getWritersSameBlock (c : MoverCtx) (n : GNode) : Option (List GNode) := do
  let ws ← getWritersN c.mst n
  pure (c.arena.filter (fun m => ws.any (fun w => GNode.containsId m w)))

/-- Count lookup in a multiset map, `unordered_map` style: absent is 0. -/
def getCount : List (NodeId × Nat) → NodeId → Nat
  | [], _ => 0
  | (j, cnt) :: rest, k => if j = k then cnt else getCount rest k

/-- Key presence (`count(n) != 0`). -/
def hasKey : List (NodeId × Nat) → NodeId → Bool
  | [], _ => false
  | (j, _) :: rest, k => decide (j = k) || hasKey rest k

/-- `m[k]++`: increment, inserting 1 when absent. -/
def bumpCount : List (NodeId × Nat) → NodeId → List (NodeId × Nat)
  | [], k => [(k, 1)]
  | (j, cnt) :: rest, k =>
    if j = k then (j, cnt + 1) :: rest else (j, cnt) :: bumpCount rest k

/-- Remove the entry for `k`, if present. -/
def eraseKey : List (NodeId × Nat) → NodeId → List (NodeId × Nat)
  | [], _ => []
  | (j, cnt) :: rest, k => if j = k then rest else (j, cnt) :: eraseKey rest k

/-- The eraseMover update: `if (m[k] == 1) m.erase(k)` — note that
`operator[]` default-inserts a 0 entry when `k` was absent. -/
def eraseIfOne (m : List (NodeId × Nat)) (k : NodeId) : List (NodeId × Nat) :=
  if getCount m k = 1 then eraseKey m k
  else if hasKey m k then m else m ++ [(k, 0)]

/-- The index of the node with id `id` in the block order (used for
`isAfter`/`isBefore` between nodes of one block). -/
def idxOfNode (arena : List GNode) (id : NodeId) : Nat :=
  arena.findIdx (fun m => decide (m.nid = id))

/-- `a->isAfter(b)` within the block. -/
def isAfterIdx (c : MoverCtx) (a b : GNode) : Bool :=
  decide (idxOfNode c.arena b.nid < idxOfNode c.arena a.nid)

/-- `AliasDb::WorkingSet`: the accumulated mover nodes, use and writer
counts, and wildcard / writer-node tallies. -/
structure WorkingSet where
  wnodes : List GNode
  wusers : List (NodeId × Nat)
  wwriters : List (NodeId × Nat)
  numWildcards : Nat
  numWriterNodes : Nat

/-- `WorkingSet::add`. -/
def WorkingSet.add (c : MoverCtx) (ws : WorkingSet) (n : GNode) : Option WorkingSet := do
  let wrs ← getWritersSameBlock c n
  pure { wnodes := ws.wnodes ++ [n]
         wusers := (getUsersSameBlock c n).foldl (fun m u => bumpCount m u.nid) ws.wusers
         wwriters := wrs.foldl (fun m w => bumpCount m w.nid) ws.wwriters
         numWildcards := ws.numWildcards + (if hasWildcardN c.mst n then 1 else 0)
         numWriterNodes := ws.numWriterNodes + (if hasWritesN c.mty c.mst n then 1 else 0) }

/-- The `WorkingSet` constructor: `add(mover)` on an empty set. -/
def WorkingSet.init (c : MoverCtx) (mover : GNode) : Option WorkingSet :=
  WorkingSet.add c ⟨[], [], [], 0, 0⟩ mover

/-- `WorkingSet::eraseMover`. -/
def WorkingSet.eraseMover (c : MoverCtx) (ws : WorkingSet) : Option WorkingSet :=
  match ws.wnodes with
  | [] => none
  | mover :: rest => do
    let wrs ← getWritersSameBlock c mover
    pure { wnodes := rest
           wusers := (getUsersSameBlock c mover).foldl (fun m u => eraseIfOne m u.nid) ws.wusers
           wwriters := wrs.foldl (fun m w => eraseIfOne m w.nid) ws.wwriters
           numWildcards := ws.numWildcards - (if hasWildcardN c.mst mover then 1 else 0)
           numWriterNodes :=
             ws.numWriterNodes - (if hasWritesN c.mty c.mst mover then 1 else 0) }

/-- `WorkingSet::hasDataDependency`: a node after the mover depends if the
working set produces for it; a node before, if the set consumes from it. -/
def WorkingSet.hasDataDependency (c : MoverCtx) (ws : WorkingSet) (n : GNode) : Bool :=
  match ws.wnodes with
  | [] => false
  | front :: _ =>
    if isAfterIdx c n front then hasKey ws.wusers n.nid
    else (getUsersSameBlock c n).any (fun u => ws.wnodes.any (fun m => decide (m.nid = u.nid)))

/-- `WorkingSet::hasMutabilityDependency` (the final clause goes through
the cached writer query, so may throw). -/
def WorkingSet.hasMutabilityDependency (c : MoverCtx) (ws : WorkingSet) (n : GNode) :
    Option Bool :=
  if decide (0 < ws.numWildcards) && hasWritesN c.mty c.mst n then some true
  else if hasWildcardN c.mst n && decide (0 < ws.numWriterNodes) then some true
  else if hasKey ws.wwriters n.nid then some true
  else do
    let wtn ← getWritersSameBlock c n
    pure (ws.wnodes.any (fun m => wtn.any (fun w => decide (w.nid = m.nid))))

/-- `WorkingSet::dependsOn`: short-circuit data dependency, then
mutability dependency. -/
def WorkingSet.dependsOn (c : MoverCtx) (ws : WorkingSet) (n : GNode) : Option Bool :=
  if ws.wnodes.isEmpty then some false
  else if WorkingSet.hasDataDependency c ws n then some true
  else WorkingSet.hasMutabilityDependency c ws n

/-- The nodes strictly between the mover and the move point, in walk
order (reversed when walking backwards). -/
def walkNodes (arena : List GNode) (iT iM : Nat) : List GNode :=
  if iT < iM then (arena.drop (iT + 1)).take (iM - iT - 1)
  else ((arena.drop (iM + 1)).take (iT - iM - 1)).reverse

/-- One step of the walk: a node the working set depends on is added. -/
def walkStep (c : MoverCtx) (ws : WorkingSet) (cur : GNode) : Option WorkingSet := do
  let d ← WorkingSet.dependsOn c ws cur
  if d then WorkingSet.add c ws cur else pure ws

/-- Phase 1 of `tryMove`: build the working set while walking from the
mover to the move point. -/
def wsAfterWalk (c : MoverCtx) (toMove : GNode) (iT iM : Nat) : Option WorkingSet := do
  let ws0 ← WorkingSet.init c toMove
  (walkNodes c.arena iT iM).foldlM (walkStep c) ws0

/-- The two move sides. -/
inductive MoveSide : Type where
  | before : MoveSide
  | after : MoveSide
deriving DecidableEq

/-- `splitToMoveAndDeps` of `tryMove`. -/
def splitCond (side : MoveSide) (iT iM : Nat) : Bool :=
  (decide (side = MoveSide.before) && decide (iT < iM)) ||
  (decide (side = MoveSide.after) && decide (iM < iT))

/-- Node lookup by id in the block order. -/
def findNode (arena : List GNode) (id : NodeId) : Option GNode :=
  arena.find? (fun m => decide (m.nid = id))

/-- Remove the node with id `id` from the block order. -/
def eraseNode (l : List GNode) (id : NodeId) : List GNode :=
  l.filter (fun m => decide (m.nid ≠ id))

/-- Insert `n` directly before or after the anchor node. -/
def insertRel : List GNode → NodeId → Bool → GNode → List GNode
  | [], _, _, _ => []
  | x :: rest, anchorId, aft, n =>
    if x.nid = anchorId then (if aft then x :: n :: rest else n :: x :: rest)
    else x :: insertRel rest anchorId aft n

/-- `Node::moveBefore` / `moveAfter` as block-order surgery. -/
def moveNode (l : List GNode) (nId anchorId : NodeId) (aft : Bool) : List GNode :=
  match findNode l nId with
  | none => l
  | some nd => insertRel (eraseNode l nId) anchorId aft nd

/-- Phase 3 of `tryMove`: move the mover (in the split case) and then the
working-set nodes one after another relative to the move point. -/
def execMoves (l : List GNode) (side : MoveSide) (split : Bool)
    (toMoveId movePointId : NodeId) (wsNodes : List GNode) : List GNode :=
  if split then
    let l1 := moveNode l toMoveId movePointId (decide (side = MoveSide.after))
    (wsNodes.foldl
      (fun (acc : List GNode × NodeId) n =>
        (moveNode acc.1 n.nid acc.2 (decide (side = MoveSide.before)), n.nid))
      (l1, movePointId)).1
  else
    (wsNodes.foldl
      (fun (acc : List GNode × NodeId) n =>
        (moveNode acc.1 n.nid acc.2 (decide (side = MoveSide.after)), n.nid))
      (l, movePointId)).1

/-- Phases 1–3 of `tryMove` after the self-move early return: walk, adjust
for the split case, test the move point, honour `dryRun`, execute. -/
def tryMoveFrom (c : MoverCtx) (toMove movePoint : GNode) (toMoveId movePointId : NodeId)
    (side : MoveSide) (dryRun : Bool) (iT iM : Nat) : Option (Bool × List GNode) :=
  wsAfterWalk c toMove iT iM >>= fun ws =>
  (if splitCond side iT iM then WorkingSet.eraseMover c ws else pure ws) >>= fun ws1 =>
  WorkingSet.dependsOn c ws1 movePoint >>= fun dpn =>
  if dpn then pure (false, c.arena)
  else if dryRun then pure (true, c.arena)
  else pure (true, execMoves c.arena side (splitCond side iT iM) toMoveId movePointId ws1.wnodes)

/-- `AliasDb::tryMove`: both nodes must live in this block (the owning
block assert); a self-move returns true immediately. -/
def tryMove (c : MoverCtx) (toMoveId movePointId : NodeId) (side : MoveSide)
    (dryRun : Bool) : Option (Bool × List GNode) :=
  match findNode c.arena toMoveId, findNode c.arena movePointId with
  | some toMove, some movePoint =>
    if toMoveId = movePointId then some (true, c.arena)
    else
      tryMoveFrom c toMove movePoint toMoveId movePointId side dryRun
        (idxOfNode c.arena toMoveId) (idxOfNode c.arena movePointId)
  | _, _ => none

/-- `AliasDb::moveAfterTopologicallyValid`. -/
def moveAfterTopologicallyValid (c : MoverCtx) (n movePoint : NodeId) :
    Option (Bool × List GNode) :=
  tryMove c n movePoint MoveSide.after false

/-- `AliasDb::couldMoveAfterTopologically`. -/
def couldMoveAfterTopologically (c : MoverCtx) (n movePoint : NodeId) :
    Option (Bool × List GNode) :=
  tryMove c n movePoint MoveSide.after true

/-- `AliasDb::moveBeforeTopologicallyValid`. -/
def moveBeforeTopologicallyValid (c : MoverCtx) (n movePoint : NodeId) :
    Option (Bool × List GNode) :=
  tryMove c n movePoint MoveSide.before false

/-- `AliasDb::couldMoveBeforeTopologically`. -/
def couldMoveBeforeTopologically (c : MoverCtx) (n movePoint : NodeId) :
    Option (Bool × List GNode) :=
  tryMove c n movePoint MoveSide.before true

/-- **C10.**  A self-move — `tryMove(n, n, side, dryRun)` for any side and
dryRun flag, hence also `moveAfterTopologicallyValid(n, n)`,
`moveBeforeTopologicallyValid(n, n)` and both `couldMove*` queries —
returns true immediately and leaves the block order unmodified: the
`toMove == movePoint` early return fires before any work. -/
theorem C10_self_move_returns_true {c : MoverCtx} {nId : NodeId} {nd : GNode}
    (h : findNode c.arena nId = some nd) :
    (∀ side dryRun, tryMove c nId nId side dryRun = some (true, c.arena)) ∧
    moveAfterTopologicallyValid c nId nId = some (true, c.arena) ∧
    moveBeforeTopologicallyValid c nId nId = some (true, c.arena) ∧
    couldMoveAfterTopologically c nId nId = some (true, c.arena) ∧
    couldMoveBeforeTopologically c nId nId = some (true, c.arena) := by
  have key : ∀ side dryRun, tryMove c nId nId side dryRun = some (true, c.arena) := by
    intro side dryRun
    unfold tryMove
    rw [h]
    simp
  exact ⟨key, key MoveSide.after false, key MoveSide.before false,
    key MoveSide.after true, key MoveSide.before true⟩

/-- The single node of the C10 witness block. -/
def c10Node : GNode := .mk .constant 3 [] [7] .nil none none 0 0

/-- The C10 witness context: one node, empty analysis state. -/
def c10Ctx : MoverCtx := ⟨fun _ => JType.tensor, emptyState, [c10Node]⟩

/-- Witness for `C10_self_move_returns_true` at a concrete one-node
block. -/
theorem C10_self_move_returns_true_witness :
    (∀ side dryRun, tryMove c10Ctx 3 3 side dryRun = some (true, c10Ctx.arena)) ∧
    moveAfterTopologicallyValid c10Ctx 3 3 = some (true, c10Ctx.arena) ∧
    moveBeforeTopologicallyValid c10Ctx 3 3 = some (true, c10Ctx.arena) ∧
    couldMoveAfterTopologically c10Ctx 3 3 = some (true, c10Ctx.arena) ∧
    couldMoveBeforeTopologically c10Ctx 3 3 = some (true, c10Ctx.arena) :=
  @C10_self_move_returns_true c10Ctx 3 c10Node rfl

/-- **C5.**  For distinct nodes of one block: if the working set
accumulated on the walk (adjusted by `eraseMover` in the split case)
still depends on the move point, `tryMove` returns false and the block
order is returned unmodified, for either `dryRun` value; and the
`couldMoveAfterTopologically` / `couldMoveBeforeTopologically` dry-run
queries always return the block order unmodified, whatever their
outcome. -/
theorem C5_blocked_move_and_dry_run {c : MoverCtx} :
    (∀ (tId mId : NodeId) (side : MoveSide) (toMove movePoint : GNode)
        (ws ws1 : WorkingSet),
      findNode c.arena tId = some toMove →
      findNode c.arena mId = some movePoint →
      tId ≠ mId →
      wsAfterWalk c toMove (idxOfNode c.arena tId) (idxOfNode c.arena mId) = some ws →
      (if splitCond side (idxOfNode c.arena tId) (idxOfNode c.arena mId)
        then WorkingSet.eraseMover c ws else pure ws) = some ws1 →
      WorkingSet.dependsOn c ws1 movePoint = some true →
      ∀ dryRun, tryMove c tId mId side dryRun = some (false, c.arena)) ∧
    (∀ (n mp : NodeId) (r : Bool) (g : List GNode),
      couldMoveAfterTopologically c n mp = some (r, g) ∨
      couldMoveBeforeTopologically c n mp = some (r, g) → g = c.arena) := by
  have key2 : ∀ (n mp : NodeId) (side : MoveSide) (r : Bool) (g : List GNode),
      tryMove c n mp side true = some (r, g) → g = c.arena := by
    intro n mp side r g h
    unfold tryMove at h
    cases hT : findNode c.arena n with
    | none =>
      rw [hT] at h
      cases hM : findNode c.arena mp with
      | none =>
        rw [hM] at h
        exact Option.noConfusion h
      | some movePoint =>
        rw [hM] at h
        exact Option.noConfusion h
    | some toMove =>
      rw [hT] at h
      cases hM : findNode c.arena mp with
      | none =>
        rw [hM] at h
        exact Option.noConfusion h
      | some movePoint =>
        rw [hM] at h
        have h2 : (if n = mp then (some (true, c.arena) : Option (Bool × List GNode))
            else tryMoveFrom c toMove movePoint n mp side true
              (idxOfNode c.arena n) (idxOfNode c.arena mp)) = some (r, g) := h
        by_cases heq : n = mp
        · rw [if_pos heq] at h2
          exact (congrArg Prod.snd (Option.some.inj h2)).symm
        · rw [if_neg heq] at h2
          unfold tryMoveFrom at h2
          cases hws : wsAfterWalk c toMove (idxOfNode c.arena n) (idxOfNode c.arena mp) with
          | none =>
            rw [hws, option_bind_none] at h2
            exact Option.noConfusion h2
          | some ws =>
            rw [hws, option_bind_some] at h2
            cases hsp : (if splitCond side (idxOfNode c.arena n) (idxOfNode c.arena mp)
                then WorkingSet.eraseMover c ws else pure ws) with
            | none =>
              rw [hsp, option_bind_none] at h2
              exact Option.noConfusion h2
            | some ws1 =>
              rw [hsp, option_bind_some] at h2
              cases hdp : WorkingSet.dependsOn c ws1 movePoint with
              | none =>
                rw [hdp, option_bind_none] at h2
                exact Option.noConfusion h2
              | some dpn =>
                rw [hdp, option_bind_some] at h2
                cases dpn with
                | true =>
                  have h3 : (some (false, c.arena) : Option (Bool × List GNode))
                      = some (r, g) := h2
                  exact (congrArg Prod.snd (Option.some.inj h3)).symm
                | false =>
                  have h3 : (some (true, c.arena) : Option (Bool × List GNode))
                      = some (r, g) := h2
                  exact (congrArg Prod.snd (Option.some.inj h3)).symm
  constructor
  · intro tId mId side toMove movePoint ws ws1 hT hM hne hws hsp hdep dryRun
    unfold tryMove
    rw [hT, hM]
    show (if tId = mId then (some (true, c.arena) : Option (Bool × List GNode))
        else tryMoveFrom c toMove movePoint tId mId side dryRun
          (idxOfNode c.arena tId) (idxOfNode c.arena mId)) = some (false, c.arena)
    rw [if_neg hne]
    unfold tryMoveFrom
    rw [hws, option_bind_some, hsp, option_bind_some, hdep, option_bind_some]
    rfl
  · intro n mp r g hor
    rcases hor with h | h
    · exact key2 n mp MoveSide.after r g h
    · exact key2 n mp MoveSide.before r g h

/-- The producer node of the C5 witness: its output 10 feeds the move
point. -/
def c5Prod : GNode := .mk .constant 0 [] [10] .nil none none 0 0

/-- The consumer (move point) of the C5 witness. -/
def c5Cons : GNode := .mk (.other 1) 2 [10] [] .nil none none 0 0

/-- The C5 witness context: producer then consumer, empty analysis
state. -/
def c5Ctx : MoverCtx := ⟨fun _ => JType.tensor, emptyState, [c5Prod, c5Cons]⟩

/-- The working set accumulated when trying to move `c5Prod` to
`c5Cons`. -/
def c5WS : WorkingSet :=
  (wsAfterWalk c5Ctx c5Prod (idxOfNode c5Ctx.arena 0) (idxOfNode c5Ctx.arena 2)).getD
    ⟨[], [], [], 0, 0⟩

/-- Witness for `C5_blocked_move_and_dry_run`: moving the producer after
its consumer is blocked (and the dry-run purity clause at a concrete
query). -/
theorem C5_blocked_move_and_dry_run_witness :
    (tryMove c5Ctx 0 2 MoveSide.after false = some (false, c5Ctx.arena) ∧
     tryMove c5Ctx 0 2 MoveSide.after true = some (false, c5Ctx.arena)) ∧
    c5Ctx.arena = c5Ctx.arena :=
  ⟨⟨(@C5_blocked_move_and_dry_run c5Ctx).1 0 2 MoveSide.after c5Prod c5Cons c5WS c5WS
      rfl rfl (by decide) rfl rfl rfl false,
    (@C5_blocked_move_and_dry_run c5Ctx).1 0 2 MoveSide.after c5Prod c5Cons c5WS c5WS
      rfl rfl (by decide) rfl rfl rfl true⟩,
   (@C5_blocked_move_and_dry_run c5Ctx).2 0 2 false c5Ctx.arena (Or.inl rfl)⟩

end AliasModel
